import Mathlib

/-!
Verification of the SS14 YAML sanitizer core (`src/yaml_sanitizer.py`).

The sanitizer works over YAML documents parsed by ruamel in round-trip mode.
We embed the parsed values as a tree type `Value`: scalars (strings, ints,
bools, null), ruamel `TaggedScalar` wrappers (objects carrying a `.value`
attribute with the underlying scalar and a tag), ordered sequences, and
key-ordered mappings.  Mapping keys are strings, which is what every key the
sanitizer touches is; Python dict semantics (unique keys) is where relevant
tracked by the `keysNodup` predicate.
-/

namespace YamlSanitizer

/-- Underlying scalar primitives of YAML nodes. -/
inductive Prim where
  | str (s : String)
  | int (n : Int)
  | bool (b : Bool)
  | null
deriving DecidableEq, Repr

/-- The Python runtime class of a value, as tested by `type(val1) != type(val2)`
in `_compare_values`.  All `TaggedScalar` wrappers share one class, regardless
of their tag. -/
inductive PyType where
  | tstr | tint | tbool | tnone | ttagged | tlist | tdict
deriving DecidableEq, Repr

/-- A parsed YAML value. -/
inductive Value where
  | prim (p : Prim)
  | tagged (tag : String) (v : Prim)
  | seq (l : List Value)
  | map (l : List (String × Value))
deriving Repr

mutual

def Value.decEq : (a b : Value) → Decidable (a = b)
  | .prim p, .prim q =>
    if h : p = q then .isTrue (by rw [h])
    else .isFalse (by intro he; injection he with h1; exact h h1)
  | .prim _, .tagged _ _ => .isFalse (by intro h; exact Value.noConfusion h)
  | .prim _, .seq _ => .isFalse (by intro h; exact Value.noConfusion h)
  | .prim _, .map _ => .isFalse (by intro h; exact Value.noConfusion h)
  | .tagged _ _, .prim _ => .isFalse (by intro h; exact Value.noConfusion h)
  | .tagged t p, .tagged u q =>
    if h : t = u ∧ p = q then .isTrue (by rw [h.1, h.2])
    else .isFalse (by intro he; injection he with h1 h2; exact h ⟨h1, h2⟩)
  | .tagged _ _, .seq _ => .isFalse (by intro h; exact Value.noConfusion h)
  | .tagged _ _, .map _ => .isFalse (by intro h; exact Value.noConfusion h)
  | .seq _, .prim _ => .isFalse (by intro h; exact Value.noConfusion h)
  | .seq _, .tagged _ _ => .isFalse (by intro h; exact Value.noConfusion h)
  | .seq l1, .seq l2 =>
    match Value.decEqList l1 l2 with
    | .isTrue h => .isTrue (by rw [h])
    | .isFalse h => .isFalse (by intro he; injection he with h1; exact h h1)
  | .seq _, .map _ => .isFalse (by intro h; exact Value.noConfusion h)
  | .map _, .prim _ => .isFalse (by intro h; exact Value.noConfusion h)
  | .map _, .tagged _ _ => .isFalse (by intro h; exact Value.noConfusion h)
  | .map _, .seq _ => .isFalse (by intro h; exact Value.noConfusion h)
  | .map m1, .map m2 =>
    match Value.decEqPairs m1 m2 with
    | .isTrue h => .isTrue (by rw [h])
    | .isFalse h => .isFalse (by intro he; injection he with h1; exact h h1)

def Value.decEqList : (a b : List Value) → Decidable (a = b)
  | [], [] => .isTrue rfl
  | [], _ :: _ => .isFalse (by intro h; exact List.noConfusion h)
  | _ :: _, [] => .isFalse (by intro h; exact List.noConfusion h)
  | a :: as', b :: bs =>
    match Value.decEq a b, Value.decEqList as' bs with
    | .isTrue h1, .isTrue h2 => .isTrue (by rw [h1, h2])
    | .isFalse h1, _ => .isFalse (by intro he; injection he with x y; exact h1 x)
    | _, .isFalse h2 => .isFalse (by intro he; injection he with x y; exact h2 y)

def Value.decEqPairs : (a b : List (String × Value)) → Decidable (a = b)
  | [], [] => .isTrue rfl
  | [], _ :: _ => .isFalse (by intro h; exact List.noConfusion h)
  | _ :: _, [] => .isFalse (by intro h; exact List.noConfusion h)
  | (k, v) :: r, (k', v') :: r' =>
    match String.decEq k k', Value.decEq v v', Value.decEqPairs r r' with
    | .isTrue h1, .isTrue h2, .isTrue h3 => .isTrue (by rw [h1, h2, h3])
    | .isFalse h1, _, _ => .isFalse (by
        intro he; injection he with x y; injection x with x1 x2; exact h1 x1)
    | _, .isFalse h2, _ => .isFalse (by
        intro he; injection he with x y; injection x with x1 x2; exact h2 x2)
    | _, _, .isFalse h3 => .isFalse (by intro he; injection he with x y; exact h3 y)

end

instance : DecidableEq Value := Value.decEq

instance {ε α : Type} [DecidableEq ε] [DecidableEq α] : DecidableEq (Except ε α) :=
  fun a b =>
    match a, b with
    | .error e, .error f =>
      if h : e = f then .isTrue (by rw [h])
      else .isFalse (by intro he; injection he with h1; exact h h1)
    | .error _, .ok _ => .isFalse (by intro h; exact Except.noConfusion h)
    | .ok _, .error _ => .isFalse (by intro h; exact Except.noConfusion h)
    | .ok x, .ok y =>
      if h : x = y then .isTrue (by rw [h])
      else .isFalse (by intro he; injection he with h1; exact h h1)

/-- A Python dict of string keys (a component or a prototype document). -/
abbrev Fields := List (String × Value)

/-- `type(v)` as used by the comparison's leading type check. -/
def pyType : Value → PyType
  | .prim (.str _) => .tstr
  | .prim (.int _) => .tint
  | .prim (.bool _) => .tbool
  | .prim .null => .tnone
  | .tagged _ _ => .ttagged
  | .seq _ => .tlist
  | .map _ => .tdict

mutual

/-- `_compare_values` (src lines 142-158): leading `type(val1) != type(val2)`
check, one-directional containment on dicts, pairwise comparison on lists of
equal length, `.value` comparison for tagged-scalar wrappers, `==` on scalars. -/
def compare_values : Value → Value → Bool
  | v1, v2 =>
    if pyType v1 ≠ pyType v2 then false
    else match v1, v2 with
      | .map m1, .map m2 => comparePairs m1 m2
      | .seq l1, .seq l2 =>
        if l1.length = l2.length then compareLists l1 l2 else false
      | .tagged _ p1, .tagged _ p2 => p1 == p2
      | .prim p1, .prim p2 => p1 == p2
      | _, _ => false

/-- `all(k in val2 and self._compare_values(v, val2[k]) for k, v in val1.items())`. -/
def comparePairs : Fields → Fields → Bool
  | [], _ => true
  | (k, v) :: rest, m2 =>
    (match m2.lookup k with
     | some w => compare_values v w
     | none => false)
    && comparePairs rest m2

/-- `all(self._compare_values(v1, v2) for v1, v2 in zip(val1, val2))`;
only reached when the lengths agree. -/
def compareLists : List Value → List Value → Bool
  | [], _ => true
  | _, [] => false
  | a :: as', b :: bs => compare_values a b && compareLists as' bs

end

/-- `{k: v for k, v in comp.items() if k != 'type'}`. -/
def excludeType (m : Fields) : Fields :=
  m.filter fun kv => kv.1 ≠ "type"

/-- `are_components_equal` (src lines 123-140).  In the total model the
`try/except` around `_compare_values` never fires; the exception-channel
model below (`are_components_equalE`) makes it explicit. -/
def are_components_equal (comp1 comp2 : Fields) : Bool :=
  let d1 := excludeType comp1
  let d2 := excludeType comp2
  if d1.isEmpty && d2.isEmpty then true
  else if d1.isEmpty != d2.isEmpty then false
  else compare_values (.map d1) (.map d2)

/-- Python membership test `k in d` on a dict. -/
def containsKey (k : String) (l : List (String × α)) : Bool :=
  (l.lookup k).isSome

/-- The inner test of `_remove_redundant_fields` (src line 172):
`key in parent_comp and self._compare_values(value, parent_comp[key])`,
scanned over all ancestor components of the type. -/
def fieldRedundant (parents : List Fields) (k : String) (v : Value) : Bool :=
  parents.any fun p =>
    match p.lookup k with
    | some w => compare_values v w
    | none => false

/-- The `redundant_fields` set of `_remove_redundant_fields`, as the list of
keys of the component (other than `type`) that match in at least one ancestor
component.  The code builds it as a set by a parents-outer/fields-inner double
loop; the resulting key set is the same. -/
def redundantKeyList (component : Fields) (parents : List Fields) : List String :=
  (component.filter fun kv => kv.1 != "type" && fieldRedundant parents kv.1 kv.2).map Prod.fst

/-- `_remove_redundant_fields` (src lines 160-183): copy the component and
delete every key in the redundant set. -/
def remove_redundant_fields (component : Fields) (parents : List Fields) : Fields :=
  let redundant := redundantKeyList component parents
  component.filter fun kv => !(redundant.contains kv.1)

/-- The ancestor component index: component type value → list of ancestor
component dicts, in collected order.  Python dict keyed by the `type` value. -/
abbrev PCIndex := List (Value × List Fields)

/-- The document store `self.prototypes`: prototype id → document. -/
abbrev Store := List (String × Fields)

/-- `parent_components[comp_type].append(comp)`, creating the entry first when
absent (`if comp_type not in parent_components: parent_components[comp_type] = []`). -/
def addComp (idx : PCIndex) (t : Value) (comp : Fields) : PCIndex :=
  if (idx.lookup t).isSome then
    idx.map fun e => if e.1 = t then (e.1, e.2 ++ [comp]) else e
  else idx ++ [(t, [comp])]

/-- One step of merging a recursively-collected index:
`parent_components[comp_type].extend(configs)`, creating the entry when absent. -/
def mergeEntry (idx : PCIndex) (t : Value) (configs : List Fields) : PCIndex :=
  if (idx.lookup t).isSome then
    idx.map fun e => if e.1 = t then (e.1, e.2 ++ configs) else e
  else idx ++ [(t, configs)]

/-- `for comp_type, configs in parent_comps.items(): ... extend(configs)`
(src lines 212-216). -/
def mergeIndex (idx sub : PCIndex) : PCIndex :=
  sub.foldl (fun a e => mergeEntry a e.1 e.2) idx

/-- One entry of a parent's `components` sequence (src lines 204-209):
`if isinstance(comp, dict) and 'type' in comp`, append it under its type. -/
def collectStep (a : PCIndex) (c : Value) : PCIndex :=
  match c with
  | .map m =>
    match m.lookup "type" with
    | some t => addComp a t m
    | none => a
  | _ => a

/-- Collection of a parent's own components (src lines 203-209). -/
def collectDirect (idx : PCIndex) (comps : List Value) : PCIndex :=
  comps.foldl collectStep idx

/-- Normalization of `prototype.get('parent', [])` (src lines 189-193):
absent → no parents; a single string → singleton; a list → as is; any other
shape → no parents (the code returns the empty index immediately, which equals
looping over an empty parent list). -/
def parentList (proto : Fields) : List Value :=
  match proto.lookup "parent" with
  | none => []
  | some (.prim (.str s)) => [.prim (.str s)]
  | some (.seq l) => l
  | some _ => []

/-- `get_all_parent_components` (src lines 185-218), as the `for parent_id in
parents` fold.  Unresolved or non-string parent ids are skipped with a warning;
otherwise the parent's direct components are collected and its recursively
collected ancestor index is merged in.  The Python code has no cycle guard and
recurses unboundedly on cyclic parent graphs; the `fuel` argument models the
recursion limit, `none` being the crash of running out of stack.  One unit of
fuel is consumed per recursive call. -/
def get_all_parent_components : Nat → Store → Fields → Option PCIndex
  | 0, _, _ => none
  | fuel + 1, store, proto =>
    (parentList proto).foldl
      (fun acc pv =>
        match acc with
        | none => none
        | some a =>
          match pv with
          | .prim (.str pid) =>
            match store.lookup pid with
            | none => some a
            | some parent =>
              let a1 :=
                match parent.lookup "components" with
                | some (.seq comps) => collectDirect a comps
                | _ => a
              match get_all_parent_components fuel store parent with
              | none => none
              | some sub => some (mergeIndex a1 sub)
          | _ => some a)
      (some [])

/-- Whether a `components` entry is a dict carrying a `type` key
(`isinstance(component, dict) and 'type' in component`). -/
def isEntityComp (c : Value) : Bool :=
  match c with
  | .map m => (m.lookup "type").isSome
  | _ => false

/-- The per-component decision of the `sanitize_prototype` loop
(src lines 230-248): `none` means the component is appended to
`components_to_remove`; `some c` is its (possibly field-stripped) final value.
The code's write-back guard `if cleaned_comp != component` only skips storing
a dict equal to the present one, so it is transparent at the value level. -/
def processComponent (pc : PCIndex) (c : Value) : Option Value :=
  match c with
  | .map m =>
    match m.lookup "type" with
    | some t =>
      match pc.lookup t with
      | some parentComps =>
        if parentComps.any (fun p => are_components_equal m p) then none
        else some (.map (remove_redundant_fields m parentComps))
      | none => some c
    | none => some c
  | _ => some c

/-- The component pass of `sanitize_prototype`: marking indices during the
scan and deleting the marked indices in reverse order afterwards removes
exactly the marked positions, i.e. it keeps, in order, the entries the scan
did not mark. -/
def sanitizeComponents (pc : PCIndex) (comps : List Value) : List Value :=
  comps.filterMap (processComponent pc)

/-- `PROTOTYPE_FIELD_ORDER` (src lines 17-27). -/
def PROTOTYPE_FIELD_ORDER : List String :=
  ["type", "abstract", "parent", "id", "categories", "name", "suffix",
   "description", "components"]

/-- One step of the first loop of `_order_prototype_fields`:
`if field in prototype: ordered[field] = prototype[field]`. -/
def orderStep (proto : List (String × α)) (acc : List (String × α)) (f : String) :
    List (String × α) :=
  match proto.lookup f with
  | some v => acc ++ [(f, v)]
  | none => acc

/-- One step of the second loop of `_order_prototype_fields`:
`if key not in ordered: ordered[key] = value`. -/
def extraStep (acc : List (String × α)) (kv : String × α) : List (String × α) :=
  if containsKey kv.1 acc then acc else acc ++ [kv]

/-- `_order_prototype_fields` (src lines 41-55): priority fields first (in the
fixed order, when present), then remaining fields in original order.  The
Python function only moves entries around, so the value type is generic. -/
def order_prototype_fields (proto : List (String × α)) : List (String × α) :=
  proto.foldl extraStep (PROTOTYPE_FIELD_ORDER.foldl (orderStep proto) [])

/-- Assignment `d[k] = v` for a key already present in the dict. -/
def setKey (l : List (String × α)) (k : String) (v : α) : List (String × α) :=
  l.map fun kv => if kv.1 = k then (k, v) else kv

/-- `sanitize_prototype` (src lines 220-260).  `copy.deepcopy` is a value-level
copy (the heap model below makes the freshness explicit); the in-place
mutations of the copy's `components` list are the `setKey`.  `none` models the
crash of the unguarded parent-chain recursion running out of stack. -/
def sanitize_prototype (fuel : Nat) (store : Store) (prototype : Fields) : Option Fields :=
  match prototype.lookup "components" with
  | some (.seq comps) =>
    match get_all_parent_components fuel store prototype with
    | none => none
    | some pc =>
      some (order_prototype_fields
        (setKey prototype "components" (.seq (sanitizeComponents pc comps))))
  | _ => some (order_prototype_fields prototype)

/-- Python dicts have unique keys; documents read from YAML satisfy this at
every level.  Theorems that rely on dict semantics assume it where needed. -/
def keysNodup (l : List (String × α)) : Prop :=
  (l.map Prod.fst).Nodup

instance (l : List (String × α)) : Decidable (keysNodup l) :=
  inferInstanceAs (Decidable (l.map Prod.fst).Nodup)

/-- The priority block of `_order_prototype_fields`: the fields of
`PROTOTYPE_FIELD_ORDER` that the document carries, in that fixed order. -/
def priorityPart (proto : List (String × α)) : List (String × α) :=
  PROTOTYPE_FIELD_ORDER.filterMap fun f => (proto.lookup f).map fun v => (f, v)

/-- Side condition for the amended idempotence claim: no component surviving
the first sanitize run consists of only its `type` field while some collected
ancestor component of the same type also has only its `type` field.  (Such a
pair is whole-equal, so a second run would remove the component.) -/
def noBareRematch (fuel : Nat) (store : Store) (prototype : Fields) : Bool :=
  match prototype.lookup "components", get_all_parent_components fuel store prototype with
  | some (.seq comps), some pc =>
    (sanitizeComponents pc comps).all fun c =>
      match c with
      | .map m =>
        match m.lookup "type" with
        | some t =>
          match pc.lookup t with
          | some L => !(excludeType m).isEmpty || L.all fun anc => !(excludeType anc).isEmpty
          | none => true
        | none => true
      | _ => true
  | _, _ => true

/-- Store refuting idempotence: ancestor `A` has a bare `{type: X}` component,
`B` and `C` each match one field of the target's X component but not both. -/
def storeCex : Store :=
  [("A", [("type", .prim (.str "entity")), ("id", .prim (.str "A")),
          ("components", .seq [.map [("type", .prim (.str "X"))]])]),
   ("B", [("type", .prim (.str "entity")), ("id", .prim (.str "B")),
          ("components", .seq [.map [("type", .prim (.str "X")),
                                     ("a", .prim (.int 1)), ("b", .prim (.int 99))]])]),
   ("C", [("type", .prim (.str "entity")), ("id", .prim (.str "C")),
          ("components", .seq [.map [("type", .prim (.str "X")),
                                     ("b", .prim (.int 2)), ("a", .prim (.int 99))]])])]

/-- Target refuting idempotence: its X component is not whole-equal to any
ancestor, but every field is redundant via some ancestor, so the first run
strips it to `{type: X}` and a second run whole-removes it against `A`. -/
def protoCex : Fields :=
  [("type", .prim (.str "entity")), ("id", .prim (.str "P")),
   ("parent", .seq [.prim (.str "A"), .prim (.str "B"), .prim (.str "C")]),
   ("components", .seq [.map [("type", .prim (.str "X")),
                              ("a", .prim (.int 1)), ("b", .prim (.int 2))]])]

/-- Store for the amended-idempotence witness (the spec's Sprite example). -/
def storeIdem : Store :=
  [("A", [("type", .prim (.str "entity")), ("id", .prim (.str "A")),
          ("components", .seq [.map [("type", .prim (.str "Sprite")),
                                     ("path", .prim (.str "x"))]])])]

/-- Target for the amended-idempotence witness. -/
def protoIdem : Fields :=
  [("type", .prim (.str "entity")), ("id", .prim (.str "P")),
   ("parent", .prim (.str "A")),
   ("components", .seq [.map [("type", .prim (.str "Sprite")),
                              ("path", .prim (.str "x")),
                              ("color", .prim (.str "red"))]])]

/-- First sanitize of `protoIdem`: `path` stripped, fields reordered. -/
def sanitizedIdem : Fields :=
  [("type", .prim (.str "entity")), ("parent", .prim (.str "A")),
   ("id", .prim (.str "P")),
   ("components", .seq [.map [("type", .prim (.str "Sprite")),
                              ("color", .prim (.str "red"))]])]

/-- Store for the escaped-comparison-exception counterexample: the ancestor's
X component carries a nested field value. -/
def storeExc : Store :=
  [("A", [("type", .prim (.str "entity")), ("id", .prim (.str "A")),
          ("components", .seq [.map [("type", .prim (.str "X")),
                                     ("a", .seq [.prim (.int 1)])]])])]

/-- Target for the escaped-comparison-exception counterexample: its X
component repeats the ancestor's nested field. -/
def protoExc : Fields :=
  [("type", .prim (.str "entity")), ("id", .prim (.str "P")),
   ("parent", .prim (.str "A")),
   ("components", .seq [.map [("type", .prim (.str "X")),
                              ("a", .seq [.prim (.int 1)])]])]

/-!
## Exception-channel model

`_compare_values` is recursive with no internal exception handling; comparing
values nested more deeply than the remaining Python recursion budget raises
`RecursionError`.  The functions below repeat the sanitizer with that exception
channel explicit: `d` is the remaining recursion depth, `.error ()` an escaped
exception.  `are_components_equal` wraps its comparison in `try/except`
(src lines 137-140); `_remove_redundant_fields` calls `_compare_values` bare
(src line 172), so an exception there propagates.
-/

/-- `_compare_values` with the recursion budget explicit; each nested
comparison call consumes one unit.  The generator-driven `all(...)` loops
short-circuit: after a `False` element, later comparisons never run. -/
def compare_valuesE : Nat → Value → Value → Except Unit Bool
  | 0, _, _ => .error ()
  | d + 1, v1, v2 =>
    if pyType v1 ≠ pyType v2 then .ok false
    else match v1, v2 with
      | .map m1, .map m2 =>
        m1.foldl
          (fun acc kv =>
            match acc with
            | .error e => .error e
            | .ok false => .ok false
            | .ok true =>
              match m2.lookup kv.1 with
              | none => .ok false
              | some w => compare_valuesE d kv.2 w)
          (.ok true)
      | .seq l1, .seq l2 =>
        if l1.length = l2.length then
          (l1.zip l2).foldl
            (fun acc ab =>
              match acc with
              | .error e => .error e
              | .ok false => .ok false
              | .ok true => compare_valuesE d ab.1 ab.2)
            (.ok true)
        else .ok false
      | .tagged _ p1, .tagged _ p2 => .ok (p1 == p2)
      | .prim p1, .prim p2 => .ok (p1 == p2)
      | _, _ => .ok false

/-- `are_components_equal` with the exception channel: the `try/except`
converts a comparison exception into `False` (not equal). -/
def are_components_equalE (d : Nat) (comp1 comp2 : Fields) : Bool :=
  let d1 := excludeType comp1
  let d2 := excludeType comp2
  if d1.isEmpty && d2.isEmpty then true
  else if d1.isEmpty != d2.isEmpty then false
  else
    match compare_valuesE d (.map d1) (.map d2) with
    | .ok b => b
    | .error _ => false

/-- The `redundant_fields` set built by `_remove_redundant_fields`, with the
exception channel: the parents-outer/fields-inner double loop has no handler,
so the first comparison exception escapes. -/
def redundantKeysE (d : Nat) (component : Fields) (parents : List Fields) :
    Except Unit (List String) :=
  parents.foldl
    (fun acc p =>
      match acc with
      | .error e => .error e
      | .ok ks =>
        component.foldl
          (fun acc2 kv =>
            match acc2 with
            | .error e => .error e
            | .ok ks2 =>
              if kv.1 == "type" then .ok ks2
              else
                match p.lookup kv.1 with
                | none => .ok ks2
                | some w =>
                  match compare_valuesE d kv.2 w with
                  | .error e => .error e
                  | .ok true => .ok (if ks2.contains kv.1 then ks2 else ks2 ++ [kv.1])
                  | .ok false => .ok ks2)
          (.ok ks))
    (.ok [])

/-- `_remove_redundant_fields` with the exception channel. -/
def remove_redundant_fieldsE (d : Nat) (component : Fields) (parents : List Fields) :
    Except Unit Fields :=
  match redundantKeysE d component parents with
  | .error e => .error e
  | .ok redundant => .ok (component.filter fun kv => !(redundant.contains kv.1))

/-- The per-component decision of `sanitize_prototype` with the exception
channel.  The whole-removal loop uses `are_components_equal`, which never
raises; the stripping step can raise. -/
def processComponentE (d : Nat) (pc : PCIndex) (c : Value) : Except Unit (Option Value) :=
  match c with
  | .map m =>
    match m.lookup "type" with
    | some t =>
      match pc.lookup t with
      | some parentComps =>
        if parentComps.any (fun p => are_components_equalE d m p) then .ok none
        else
          match remove_redundant_fieldsE d m parentComps with
          | .error e => .error e
          | .ok m2 => .ok (some (.map m2))
      | none => .ok (some c)
    | none => .ok (some c)
  | _ => .ok (some c)

/-- The component pass of `sanitize_prototype` with the exception channel. -/
def sanitizeComponentsE (d : Nat) (pc : PCIndex) (comps : List Value) :
    Except Unit (List Value) :=
  comps.foldl
    (fun acc c =>
      match acc with
      | .error e => .error e
      | .ok done =>
        match processComponentE d pc c with
        | .error e => .error e
        | .ok none => .ok done
        | .ok (some c2) => .ok (done ++ [c2]))
    (.ok [])

/-- `sanitize_prototype` with the exception channel (`d`: remaining recursion
budget for value comparisons; `fuel`: budget of the parent-chain walk). -/
def sanitize_prototypeE (fuel d : Nat) (store : Store) (prototype : Fields) :
    Except Unit Fields :=
  match prototype.lookup "components" with
  | some (.seq comps) =>
    match get_all_parent_components fuel store prototype with
    | none => .error ()
    | some pc =>
      match sanitizeComponentsE d pc comps with
      | .error e => .error e
      | .ok comps2 =>
        .ok (order_prototype_fields (setKey prototype "components" (.seq comps2)))
  | _ => .ok (order_prototype_fields prototype)

/-!
## Heap model

`sanitize_prototype` starts from `copy.deepcopy(prototype)` and then mutates
only that copy in place; the Document Store itself is never written.  To state
this frame property we give the Python object graph explicitly: a heap maps
addresses to nodes, composite nodes hold addresses of their children, the
store maps prototype ids to addresses.  `copy.deepcopy` allocates fresh
addresses; the in-place `sanitized['components'][i] = ...` item assignments
and the reversed `del sanitized['components'][i]` deletions compose to one
write of the copied components-list node; `component.copy()` and
`_order_prototype_fields` build new dict objects sharing child addresses.
-/

abbrev Addr := Nat

/-- A heap node: a Python object of the parsed document graph. -/
inductive HVal where
  | hprim (p : Prim)
  | htagged (tag : String) (v : Prim)
  | hseq (elems : List Addr)
  | hmap (entries : List (String × Addr))
deriving DecidableEq, Repr

/-- The addresses a node holds directly. -/
def HVal.refs : HVal → List Addr
  | .hprim _ => []
  | .htagged _ _ => []
  | .hseq elems => elems
  | .hmap entries => entries.map Prod.snd

/-- A heap: allocated cells plus the next fresh address. -/
structure Heap where
  mem : List (Addr × HVal)
  next : Addr
deriving DecidableEq, Repr

def Heap.lookupA (h : Heap) (a : Addr) : Option HVal :=
  h.mem.lookup a

/-- Allocation of one node at a fresh address. -/
def Heap.push (h : Heap) (hv : HVal) : Heap × Addr :=
  ({ mem := h.mem ++ [(h.next, hv)], next := h.next + 1 }, h.next)

/-- In-place overwrite of the node at an address. -/
def Heap.write (h : Heap) (a : Addr) (hv : HVal) : Heap :=
  { mem := h.mem.map fun e => if e.1 = a then (a, hv) else e, next := h.next }

/-- Every allocated address and every address a node refers to lies below
`next`: heaps reached by loading documents are of this shape. -/
def HeapWF (h : Heap) : Prop :=
  ∀ e ∈ h.mem, e.1 < h.next ∧ ∀ r ∈ e.2.refs, r < h.next

instance (h : Heap) : Decidable (HeapWF h) :=
  inferInstanceAs (Decidable (∀ e ∈ h.mem, e.1 < h.next ∧ ∀ r ∈ e.2.refs, r < h.next))

/-- Every allocated address lies below `next` (the part of `HeapWF` that
allocation alone maintains). -/
def HeapBounded (h : Heap) : Prop :=
  ∀ e ∈ h.mem, e.1 < h.next

/-- `h2` is `h` plus freshly allocated cells: the old cells are untouched and
every new cell sits in `[h.next, h2.next)`. -/
def HeapExtends (h h2 : Heap) : Prop :=
  h.next ≤ h2.next ∧
  ∃ ext, h2.mem = h.mem ++ ext ∧ ∀ e ∈ ext, h.next ≤ e.1 ∧ e.1 < h2.next

mutual

/-- Fresh allocation of a whole value tree: the heap effect of
`copy.deepcopy` for the object graph described by the value. -/
def allocV : Heap → Value → Heap × Addr
  | h, .prim p => h.push (.hprim p)
  | h, .tagged t p => h.push (.htagged t p)
  | h, .seq l =>
    let (h1, addrs) := allocList h l
    h1.push (.hseq addrs)
  | h, .map m =>
    let (h1, entries) := allocFields h m
    h1.push (.hmap entries)

def allocList : Heap → List Value → Heap × List Addr
  | h, [] => (h, [])
  | h, v :: rest =>
    let (h1, a) := allocV h v
    let (h2, as') := allocList h1 rest
    (h2, a :: as')

def allocFields : Heap → Fields → Heap × List (String × Addr)
  | h, [] => (h, [])
  | h, (k, v) :: rest =>
    let (h1, a) := allocV h v
    let (h2, es) := allocFields h1 rest
    (h2, (k, a) :: es)

end

/-- Read a sequence node's elements through a reader for single addresses. -/
def readElems (rd : Addr → Option Value) (elems : List Addr) : Option (List Value) :=
  elems.foldr
    (fun e acc =>
      match acc with
      | none => none
      | some vs =>
        match rd e with
        | none => none
        | some v => some (v :: vs))
    (some [])

/-- Read a mapping node's entries through a reader for single addresses. -/
def readEntries (rd : Addr → Option Value) (entries : List (String × Addr)) :
    Option Fields :=
  entries.foldr
    (fun e acc =>
      match acc with
      | none => none
      | some fs =>
        match rd e.2 with
        | none => none
        | some v => some ((e.1, v) :: fs))
    (some [])

/-- Reading a value tree out of the heap; `d` bounds the depth so that the
reader is total even on ill-formed cyclic heaps. -/
def readV : Nat → Heap → Addr → Option Value
  | 0, _, _ => none
  | d + 1, h, a =>
    match h.lookupA a with
    | none => none
    | some (.hprim p) => some (.prim p)
    | some (.htagged t p) => some (.tagged t p)
    | some (.hseq elems) =>
      match readElems (readV d h) elems with
      | some vs => some (.seq vs)
      | none => none
    | some (.hmap entries) =>
      match readEntries (readV d h) entries with
      | some fs => some (.map fs)
      | none => none

/-- Reading every store document out of the heap (store documents are dicts:
the loader only retains dict entries with `type == 'entity'` and an id). -/
def readStore (d : Nat) (h : Heap) (store : List (String × Addr)) : Option Store :=
  store.foldr
    (fun e acc =>
      match acc with
      | none => none
      | some s =>
        match readV d h e.2 with
        | some (.map fs) => some ((e.1, fs) :: s)
        | _ => none)
    (some [])

/-- Concrete single-document heap for the frame-property witness. -/
def heapW : Heap :=
  { mem := [(0, .hmap [("type", 1), ("id", 2)]),
            (1, .hprim (.str "entity")),
            (2, .hprim (.str "P"))],
    next := 3 }

/-- Allocate one node and append its fresh address to an output list. -/
def pushAppend (h : Heap) (out : List Addr) (hv : HVal) : Heap × List Addr :=
  ((h.push hv).1, out ++ [(h.push hv).2])

/-- One iteration of the component scan over the copy's components-list node:
skip non-dict or type-less entries, drop a whole-equal component, and replace
a component with redundant fields by a freshly built stripped dict node
(`component.copy()` minus the redundant keys, sharing child addresses). -/
def sanStep (d : Nat) (pc : PCIndex) (acc : Heap × List Addr) (e : Addr) :
    Heap × List Addr :=
  match readV d acc.1 e with
  | none => (acc.1, acc.2 ++ [e])
  | some c =>
    match c with
    | .map m =>
      match m.lookup "type" with
      | some t =>
        match pc.lookup t with
        | some parentComps =>
          if parentComps.any (fun p => are_components_equal m p) then
            (acc.1, acc.2)
          else
            if (redundantKeyList m parentComps).isEmpty then (acc.1, acc.2 ++ [e])
            else
              match acc.1.lookupA e with
              | some (.hmap nentries) =>
                pushAppend acc.1 acc.2
                  (.hmap (nentries.filter fun kv =>
                    !((redundantKeyList m parentComps).contains kv.1)))
              | _ => (acc.1, acc.2 ++ [e])
        | none => (acc.1, acc.2 ++ [e])
      | none => (acc.1, acc.2 ++ [e])
    | _ => (acc.1, acc.2 ++ [e])

/-- `find_and_sanitize_prototype` + `sanitize_prototype` over the heap:
look the id up, deep-copy the document, run the component pass by mutating
only the copy's components-list node, and build the reordered result dict. -/
def sanitizeH (fuel d : Nat) (h : Heap) (store : List (String × Addr)) (pid : String) :
    Option (Heap × Addr) :=
  match store.lookup pid with
  | none => none
  | some pa =>
    match readV d h pa with
    | some (.map fields) =>
      match allocV h (.map fields) with
      | (h1, ca) =>
        match h1.lookupA ca with
        | some (.hmap centries) =>
          match centries.lookup "components" with
          | some la =>
            match h1.lookupA la with
            | some (.hseq elemAddrs) =>
              match readStore d h1 store with
              | none => none
              | some storeVals =>
                match get_all_parent_components fuel storeVals fields with
                | none => none
                | some pc =>
                  match elemAddrs.foldl (sanStep d pc) (h1, []) with
                  | (h3, newElems) =>
                    match (h3.write la (.hseq newElems)).push
                        (.hmap (order_prototype_fields centries)) with
                    | (h5, ra) => some (h5, ra)
            | _ =>
              match h1.push (.hmap (order_prototype_fields centries)) with
              | (h5, ra) => some (h5, ra)
          | none =>
            match h1.push (.hmap (order_prototype_fields centries)) with
            | (h5, ra) => some (h5, ra)
        | _ => none
    | _ => none

/-!
## Association-list helper lemmas
-/

theorem lookup_cons_self {κ α : Type} [BEq κ] [LawfulBEq κ]
    (k : κ) (v : α) (l : List (κ × α)) : ((k, v) :: l).lookup k = some v := by
  rw [List.lookup_cons, beq_self_eq_true]

theorem lookup_cons_ne {κ α : Type} [BEq κ] {k k1 : κ}
    (h : (k == k1) = false) (v1 : α) (l : List (κ × α)) :
    ((k1, v1) :: l).lookup k = l.lookup k := by
  rw [List.lookup_cons, h]

theorem lookup_append {κ α : Type} [BEq κ] (l1 l2 : List (κ × α)) (k : κ) :
    (l1 ++ l2).lookup k = ((l1.lookup k).or (l2.lookup k)) := by
  induction l1 with
  | nil => simp
  | cons e rest ih =>
    obtain ⟨k1, v1⟩ := e
    rw [List.cons_append, List.lookup_cons, List.lookup_cons]
    cases hbeq : k == k1
    · exact ih
    · rfl

theorem mem_of_lookup_eq_some {κ α : Type} [BEq κ] [LawfulBEq κ]
    {l : List (κ × α)} {k : κ} {v : α} (h : l.lookup k = some v) : (k, v) ∈ l := by
  induction l with
  | nil => simp [List.lookup] at h
  | cons e rest ih =>
    obtain ⟨k1, v1⟩ := e
    rw [List.lookup_cons] at h
    cases hbeq : k == k1 <;> rw [hbeq] at h
    · exact List.mem_cons_of_mem _ (ih h)
    · have hk : k = k1 := eq_of_beq hbeq
      injection h with h1
      subst hk; subst h1
      exact List.mem_cons_self _ _

theorem lookup_eq_none_iff {κ α : Type} [BEq κ] [LawfulBEq κ]
    (l : List (κ × α)) (k : κ) :
    l.lookup k = none ↔ k ∉ l.map Prod.fst := by
  induction l with
  | nil => simp
  | cons e rest ih =>
    obtain ⟨k1, v1⟩ := e
    rw [List.lookup_cons]
    cases hbeq : k == k1
    · have hk : k ≠ k1 := ne_of_beq_false hbeq
      simp [ih, hk]
    · have hk : k = k1 := eq_of_beq hbeq
      subst hk
      simp

theorem lookup_eq_some_of_mem_nodup {κ α : Type} [BEq κ] [LawfulBEq κ]
    {l : List (κ × α)} {k : κ} {v : α}
    (hn : (l.map Prod.fst).Nodup) (hm : (k, v) ∈ l) : l.lookup k = some v := by
  induction l with
  | nil => simp at hm
  | cons e rest ih =>
    obtain ⟨k1, v1⟩ := e
    simp only [List.map_cons, List.nodup_cons] at hn
    rcases List.mem_cons.mp hm with he | hm2
    · injection he with h1 h2
      subst h1; subst h2
      exact lookup_cons_self ..
    · have hne : k ≠ k1 := by
        intro he
        subst he
        exact hn.1 (List.mem_map.mpr ⟨(k, v), hm2, rfl⟩)
      rw [lookup_cons_ne (beq_false_of_ne hne)]
      exact ih hn.2 hm2

theorem lookup_filter_true {κ α : Type} [BEq κ] [LawfulBEq κ]
    {l : List (κ × α)} {p : κ × α → Bool} {k : κ}
    (h : ∀ v, (k, v) ∈ l → p (k, v) = true) :
    (l.filter p).lookup k = l.lookup k := by
  induction l with
  | nil => simp
  | cons e rest ih =>
    obtain ⟨k1, v1⟩ := e
    have ihr : (rest.filter p).lookup k = rest.lookup k :=
      ih fun v hv => h v (List.mem_cons_of_mem _ hv)
    cases hbeq : k == k1
    · cases hp : p (k1, v1) <;>
        simp [List.filter_cons, hp, lookup_cons_ne hbeq, ihr]
    · have hk : k = k1 := eq_of_beq hbeq
      subst hk
      have hp : p (k, v1) = true := h v1 (List.mem_cons_self _ _)
      simp [List.filter_cons, hp, lookup_cons_self]

theorem lookup_filter_none {κ α : Type} [BEq κ] [LawfulBEq κ]
    {l : List (κ × α)} (p : κ × α → Bool) {k : κ}
    (h : l.lookup k = none) : (l.filter p).lookup k = none := by
  rw [lookup_eq_none_iff] at h ⊢
  intro hc
  rcases List.mem_map.mp hc with ⟨e, he, hfst⟩
  exact h (List.mem_map.mpr ⟨e, List.mem_of_mem_filter he, hfst⟩)

theorem filterMap_id_of {α : Type} {l : List α} {f : α → Option α}
    (h : ∀ x ∈ l, f x = some x) : l.filterMap f = l := by
  induction l with
  | nil => simp
  | cons x rest ih =>
    rw [List.filterMap_cons, h x (List.mem_cons_self ..)]
    rw [ih fun y hy => h y (List.mem_cons_of_mem _ hy)]

/-!
## Structural comparer: characterization lemmas
-/

theorem compare_values_map (a b : Fields) :
    compare_values (.map a) (.map b) = comparePairs a b := by
  simp [compare_values, pyType]

theorem comparePairs_eq_true_iff (m1 m2 : Fields) :
    comparePairs m1 m2 = true ↔
      ∀ kv ∈ m1, ∃ w, m2.lookup kv.1 = some w ∧ compare_values kv.2 w = true := by
  induction m1 with
  | nil => simp [comparePairs]
  | cons e rest ih =>
    obtain ⟨k, v⟩ := e
    cases hl : m2.lookup k with
    | none => simp [comparePairs, hl]
    | some w => simp [comparePairs, hl, ih, and_comm]

/-- C3: the structural comparer on two mappings returns true iff every key of
`a` exists in `b` with a recursively-equal value (one-directional containment);
in particular `equal({a:1}, {a:1,b:2})` is true while `equal({a:1,b:2}, {a:1})`
is false. -/
theorem mapping_comparison_is_one_directional_containment :
    (∀ a b : Fields,
      (compare_values (.map a) (.map b) = true ↔
        ∀ kv ∈ a, ∃ w, b.lookup kv.1 = some w ∧ compare_values kv.2 w = true)) ∧
    compare_values (.map [("a", .prim (.int 1))])
      (.map [("a", .prim (.int 1)), ("b", .prim (.int 2))]) = true ∧
    compare_values (.map [("a", .prim (.int 1)), ("b", .prim (.int 2))])
      (.map [("a", .prim (.int 1))]) = false := by
  refine ⟨fun a b => ?_, by decide, by decide⟩
  rw [compare_values_map]
  exact comparePairs_eq_true_iff a b

/-- C6: in the whole-component equality check, a component with no fields
beyond `type` is equal to an ancestor component that also has none; when
exactly one of the two has fields beyond `type`, they are never whole-equal. -/
theorem only_type_component_whole_equality (c1 c2 : Fields) :
    (excludeType c1 = [] → excludeType c2 = [] → are_components_equal c1 c2 = true) ∧
    (excludeType c1 = [] → excludeType c2 ≠ [] → are_components_equal c1 c2 = false) ∧
    (excludeType c1 ≠ [] → excludeType c2 = [] → are_components_equal c1 c2 = false) := by
  refine ⟨fun h1 h2 => ?_, fun h1 h2 => ?_, fun h1 h2 => ?_⟩ <;>
    simp only [are_components_equal]
  · simp [h1, h2]
  · have e2 : (excludeType c2).isEmpty = false := by
      cases hc : excludeType c2 with
      | nil => exact absurd hc h2
      | cons a l => rfl
    simp [h1, e2]
  · have e1 : (excludeType c1).isEmpty = false := by
      cases hc : excludeType c1 with
      | nil => exact absurd hc h1
      | cons a l => rfl
    simp [e1, h2]

/-- C7: two tagged-scalar wrapper values compare equal exactly when their
underlying primitives are equal; the tags of the wrappers are ignored, and a
difference of tags alone never makes the comparison false (both wrappers are
instances of the same runtime class, so the leading type check passes). -/
theorem tagged_scalar_comparison_ignores_wrapper (t1 t2 : String) (p1 p2 : Prim) :
    compare_values (.tagged t1 p1) (.tagged t2 p2) = (p1 == p2) := by
  simp [compare_values, pyType]

/-- Witness for C6 at concrete components. -/
theorem only_type_component_whole_equality_witness :
    are_components_equal [("type", .prim (.str "X"))] [("type", .prim (.str "X"))] = true ∧
    are_components_equal [("type", .prim (.str "X"))]
      [("type", .prim (.str "X")), ("a", .prim (.int 1))] = false ∧
    are_components_equal [("type", .prim (.str "X")), ("a", .prim (.int 1))]
      [("type", .prim (.str "X"))] = false :=
  ⟨(only_type_component_whole_equality _ _).1 (by decide) (by decide),
   (only_type_component_whole_equality _ _).2.1 (by decide) (by decide),
   (only_type_component_whole_equality _ _).2.2 (by decide) (by decide)⟩

/-!
## Field stripping: characterization lemmas
-/

theorem fieldRedundant_eq_true_iff (L : List Fields) (k : String) (v : Value) :
    fieldRedundant L k v = true ↔
      ∃ anc ∈ L, ∃ w, anc.lookup k = some w ∧ compare_values v w = true := by
  unfold fieldRedundant
  rw [List.any_eq_true]
  constructor
  · rintro ⟨p, hp, hm⟩
    cases hl : p.lookup k with
    | none => rw [hl] at hm; exact absurd hm (by simp)
    | some w =>
      rw [hl] at hm
      exact ⟨p, hp, w, hl, hm⟩
  · rintro ⟨p, hp, w, hl, hc⟩
    exact ⟨p, hp, by rw [hl]; exact hc⟩

theorem mem_remove_redundant_fields {m : Fields} {L : List Fields} {k : String} {v : Value}
    (h : (k, v) ∈ remove_redundant_fields m L) :
    (k, v) ∈ m ∧ (k = "type" ∨ fieldRedundant L k v = false) := by
  unfold remove_redundant_fields at h
  have h2 := List.mem_filter.mp h
  refine ⟨h2.1, ?_⟩
  by_contra hc
  push_neg at hc
  obtain ⟨hk, hr⟩ := hc
  have hrt : fieldRedundant L k v = true := by
    cases hb : fieldRedundant L k v
    · exact absurd hb hr
    · rfl
  have hmem : k ∈ redundantKeyList m L := by
    unfold redundantKeyList
    refine List.mem_map.mpr ⟨(k, v), ?_, rfl⟩
    refine List.mem_filter.mpr ⟨h2.1, ?_⟩
    simp [hk, hrt]
  have h3 := h2.2
  rw [Bool.not_eq_true'] at h3
  rw [← List.elem_iff] at hmem
  simp [List.elem_iff] at h3
  exact h3 (List.elem_iff.mp hmem)

theorem mem_remove_redundant_fields_iff {m : Fields} {L : List Fields} {k : String} {v : Value}
    (hn : keysNodup m) :
    (k, v) ∈ remove_redundant_fields m L ↔
      (k, v) ∈ m ∧ (k = "type" ∨ fieldRedundant L k v = false) := by
  constructor
  · exact mem_remove_redundant_fields
  · rintro ⟨hm, hdisj⟩
    unfold remove_redundant_fields
    refine List.mem_filter.mpr ⟨hm, ?_⟩
    suffices hs : k ∉ redundantKeyList m L by
      simp [List.elem_iff, hs]
    intro hk
    unfold redundantKeyList at hk
    obtain ⟨⟨k1, v1⟩, hmem, hfst⟩ := List.mem_map.mp hk
    simp only at hfst
    subst hfst
    have hf := List.mem_filter.mp hmem
    have hv1 : v1 = v := by
      have l1 := lookup_eq_some_of_mem_nodup hn hf.1
      have l2 := lookup_eq_some_of_mem_nodup hn hm
      rw [l1] at l2
      injection l2
    subst hv1
    have hcond := hf.2
    simp only [Bool.and_eq_true, bne_iff_ne, ne_eq] at hcond
    rcases hdisj with hty | hred
    · exact hcond.1 hty
    · rw [hred] at hcond
      exact Bool.false_ne_true hcond.2

theorem lookup_type_remove_redundant_fields (m : Fields) (L : List Fields) :
    (remove_redundant_fields m L).lookup "type" = m.lookup "type" := by
  unfold remove_redundant_fields
  apply lookup_filter_true
  intro v hv
  suffices hs : "type" ∉ redundantKeyList m L by
    simp [List.elem_iff, hs]
  intro hk
  obtain ⟨⟨k1, v1⟩, hmem, hfst⟩ := List.mem_map.mp hk
  simp only at hfst
  subst hfst
  have hf := (List.mem_filter.mp hmem).2
  simp at hf

theorem remove_redundant_fields_eq_self {m : Fields} {L : List Fields}
    (h : ∀ k v, (k, v) ∈ m → k ≠ "type" → fieldRedundant L k v = false) :
    remove_redundant_fields m L = m := by
  unfold remove_redundant_fields
  have hempty : redundantKeyList m L = [] := by
    unfold redundantKeyList
    rw [List.filter_eq_nil_iff.mpr, List.map_nil]
    rintro ⟨k, v⟩ hm
    simp only [Bool.and_eq_true, bne_iff_ne, ne_eq, not_and]
    intro hk
    rw [h k v hm hk]
    exact Bool.false_ne_true
  rw [hempty]
  simp

/-!
## Per-component decisions of the sanitize loop
-/

theorem processComponent_of_removal {pc : PCIndex} {m : Fields} {t : Value}
    {L : List Fields}
    (htype : m.lookup "type" = some t) (hpc : pc.lookup t = some L)
    (hany : L.any (fun p => are_components_equal m p) = true) :
    processComponent pc (.map m) = none := by
  simp [processComponent, htype, hpc, hany]

theorem processComponent_of_kept {pc : PCIndex} {m : Fields} {t : Value}
    {L : List Fields}
    (htype : m.lookup "type" = some t) (hpc : pc.lookup t = some L)
    (hnoteq : ∀ anc ∈ L, are_components_equal m anc = false) :
    processComponent pc (.map m) = some (.map (remove_redundant_fields m L)) := by
  have hany : L.any (fun p => are_components_equal m p) = false :=
    List.any_eq_false.mpr fun anc h => by rw [hnoteq anc h]; exact Bool.false_ne_true
  simp [processComponent, htype, hpc, hany]

/-- C10: a `components` entry that is not a dict or has no `type` key passes
through the sanitize loop untouched, and such entries in ancestor prototypes
contribute nothing to the ancestor component index. -/
theorem non_entity_component_entries_untouched :
    (∀ (pc : PCIndex) (c : Value), isEntityComp c = false →
      processComponent pc c = some c) ∧
    (∀ (idx : PCIndex) (comps : List Value),
      collectDirect idx comps = collectDirect idx (comps.filter isEntityComp)) := by
  have hstep : ∀ (a : PCIndex) (c : Value), isEntityComp c = false → collectStep a c = a := by
    intro a c h
    cases c with
    | map m =>
      simp only [isEntityComp] at h
      cases hl : m.lookup "type" with
      | none => simp [collectStep, hl]
      | some t => rw [hl] at h; simp at h
    | prim p => rfl
    | tagged t p => rfl
    | seq l => rfl
  constructor
  · intro pc c h
    cases c with
    | map m =>
      simp only [isEntityComp] at h
      cases hl : m.lookup "type" with
      | none => simp [processComponent, hl]
      | some t => rw [hl] at h; simp at h
    | prim p => rfl
    | tagged t p => rfl
    | seq l => rfl
  · intro idx comps
    induction comps generalizing idx with
    | nil => rfl
    | cons c rest ih =>
      cases hc : isEntityComp c with
      | false =>
        rw [List.filter_cons_of_neg (by simp [hc])]
        unfold collectDirect
        rw [List.foldl_cons, hstep idx c hc]
        exact ih idx
      | true =>
        rw [List.filter_cons_of_pos hc]
        unfold collectDirect
        rw [List.foldl_cons, List.foldl_cons]
        exact ih (collectStep idx c)

/-- Witness for C10 at a concrete non-dict entry and one lacking `type`. -/
theorem non_entity_component_entries_untouched_witness :
    processComponent [] (.prim (.str "weird")) = some (.prim (.str "weird")) ∧
    processComponent [] (.map [("a", .prim (.int 1))]) =
      some (.map [("a", .prim (.int 1))]) :=
  ⟨non_entity_component_entries_untouched.1 [] (.prim (.str "weird")) (by decide),
   non_entity_component_entries_untouched.1 [] (.map [("a", .prim (.int 1))]) (by decide)⟩

/-- C4: a component whose type occurs in the ancestor index and whose fields
excluding `type` are whole-equal (child-to-parent direction) to some collected
ancestor component of that type is removed entirely from the output components
sequence; once one ancestor matches, the ancestors after it cannot change the
decision. -/
theorem whole_component_removal (pc : PCIndex) (m : Fields) (t : Value)
    (L : List Fields) (anc : Fields)
    (htype : m.lookup "type" = some t) (hpc : pc.lookup t = some L)
    (hanc : anc ∈ L) (heq : are_components_equal m anc = true) :
    processComponent pc (.map m) = none ∧
    (∀ l1 l2 : List Value,
      sanitizeComponents pc (l1 ++ .map m :: l2) =
        sanitizeComponents pc l1 ++ sanitizeComponents pc l2) ∧
    (∀ pre post : List Fields,
      (pre ++ anc :: post).any (fun p => are_components_equal m p) = true) := by
  have hany : L.any (fun p => are_components_equal m p) = true :=
    List.any_eq_true.mpr ⟨anc, hanc, heq⟩
  have hproc := processComponent_of_removal htype hpc hany
  refine ⟨hproc, fun l1 l2 => ?_, fun pre post => ?_⟩
  · simp [sanitizeComponents, List.filterMap_append, List.filterMap_cons, hproc]
  · rw [List.any_append]
    simp [heq]

/-- Witness for C4: the spec's Sprite example. -/
theorem whole_component_removal_witness :
    processComponent
      [(.prim (.str "Sprite"),
        [[("type", .prim (.str "Sprite")), ("path", .prim (.str "x"))]])]
      (.map [("type", .prim (.str "Sprite")), ("path", .prim (.str "x"))]) = none :=
  (whole_component_removal _ _ (.prim (.str "Sprite"))
    [[("type", .prim (.str "Sprite")), ("path", .prim (.str "x"))]]
    [("type", .prim (.str "Sprite")), ("path", .prim (.str "x"))]
    (by decide) (by decide) (by decide) (by decide)).1

/-- C5: a component not marked for whole removal has a field `k ≠ type`
dropped iff at least one ancestor component of its type carries that key with
a structurally-equal value, each field being decided independently over all
those ancestors; stripping can leave a bare `{type: X}` component without
triggering whole removal. -/
theorem field_level_stripping (pc : PCIndex) (m : Fields) (t : Value)
    (L : List Fields) (hn : keysNodup m)
    (htype : m.lookup "type" = some t) (hpc : pc.lookup t = some L)
    (hnoteq : ∀ anc ∈ L, are_components_equal m anc = false) :
    processComponent pc (.map m) = some (.map (remove_redundant_fields m L)) ∧
    (∀ k v, (k, v) ∈ m → k ≠ "type" →
      ((k, v) ∉ remove_redundant_fields m L ↔
        ∃ anc ∈ L, ∃ w, anc.lookup k = some w ∧ compare_values v w = true)) ∧
    (∀ anc ∈ [[("type", .prim (.str "X")), ("a", .prim (.int 1)), ("b", .prim (.int 99))],
              [("type", .prim (.str "X")), ("b", .prim (.int 2)), ("a", .prim (.int 99))]],
      are_components_equal
        [("type", Value.prim (.str "X")), ("a", .prim (.int 1)), ("b", .prim (.int 2))]
        anc = false) ∧
    processComponent
      [(.prim (.str "X"),
        [[("type", .prim (.str "X")), ("a", .prim (.int 1)), ("b", .prim (.int 99))],
         [("type", .prim (.str "X")), ("b", .prim (.int 2)), ("a", .prim (.int 99))]])]
      (.map [("type", .prim (.str "X")), ("a", .prim (.int 1)), ("b", .prim (.int 2))]) =
      some (.map [("type", .prim (.str "X"))]) := by
  refine ⟨processComponent_of_kept htype hpc hnoteq, ?_, by decide, by decide⟩
  intro k v hm hk
  rw [← fieldRedundant_eq_true_iff]
  rw [mem_remove_redundant_fields_iff hn]
  constructor
  · intro hnot
    by_contra hr
    have hrf : fieldRedundant L k v = false := by
      cases hb : fieldRedundant L k v
      · rfl
      · exact absurd hb hr
    exact hnot ⟨hm, Or.inr hrf⟩
  · rintro hr ⟨_, hdisj⟩
    rcases hdisj with hty | hrf
    · exact hk hty
    · rw [hr] at hrf
      exact absurd hrf (by simp)

/-- Witness for C5: the spec's field-stripping example
(`{type: Sprite, path: x, color: red}` against ancestor
`{type: Sprite, path: x}` keeps only `color`). -/
theorem field_level_stripping_witness :
    processComponent
      [(.prim (.str "Sprite"),
        [[("type", .prim (.str "Sprite")), ("path", .prim (.str "x"))]])]
      (.map [("type", .prim (.str "Sprite")), ("path", .prim (.str "x")),
             ("color", .prim (.str "red"))]) =
      some (.map [("type", .prim (.str "Sprite")), ("color", .prim (.str "red"))]) := by
  have h := (field_level_stripping
    [(.prim (.str "Sprite"),
      [[("type", .prim (.str "Sprite")), ("path", .prim (.str "x"))]])]
    [("type", .prim (.str "Sprite")), ("path", .prim (.str "x")),
     ("color", .prim (.str "red"))]
    (.prim (.str "Sprite"))
    [[("type", .prim (.str "Sprite")), ("path", .prim (.str "x"))]]
    (by decide) (by decide) (by decide) (by decide)).1
  rw [h]
  rfl

/-!
## Field orderer: characterization lemmas
-/

theorem lookup_isSome_of_mem {κ α : Type} [BEq κ] [LawfulBEq κ]
    {l : List (κ × α)} {k : κ} {v : α} (h : (k, v) ∈ l) :
    (l.lookup k).isSome = true := by
  induction l with
  | nil => simp at h
  | cons e rest ih =>
    obtain ⟨k1, v1⟩ := e
    rcases List.mem_cons.mp h with he | hm
    · injection he with h1 h2
      subst h1
      rw [lookup_cons_self]
      rfl
    · cases hbeq : k == k1
      · rw [lookup_cons_ne hbeq]
        exact ih hm
      · have hk := eq_of_beq hbeq
        subst hk
        rw [lookup_cons_self]
        rfl

theorem foldl_orderStep_eq {α : Type} (proto : List (String × α)) :
    ∀ (fs : List String) (acc : List (String × α)),
      fs.foldl (orderStep proto) acc
        = acc ++ fs.filterMap fun f => (proto.lookup f).map fun v => (f, v) := by
  intro fs
  induction fs with
  | nil => intro acc; simp
  | cons f rest ih =>
    intro acc
    rw [List.foldl_cons, List.filterMap_cons]
    cases hl : proto.lookup f with
    | none => simp [orderStep, hl, ih]
    | some v => simp [orderStep, hl, ih]

theorem foldl_extraStep_eq {α : Type} :
    ∀ (d acc : List (String × α)), keysNodup d →
      d.foldl extraStep acc = acc ++ d.filter fun kv => !(containsKey kv.1 acc) := by
  intro d
  induction d with
  | nil => intro acc _; simp
  | cons kv rest ih =>
    intro acc hn
    obtain ⟨k, v⟩ := kv
    simp only [keysNodup, List.map_cons, List.nodup_cons] at hn
    rw [List.foldl_cons, List.filter_cons]
    cases hc : containsKey k acc with
    | true =>
      have hstep : extraStep acc (k, v) = acc := by simp [extraStep, hc]
      rw [hstep, ih acc hn.2]
      simp [hc]
    | false =>
      have hstep : extraStep acc (k, v) = acc ++ [(k, v)] := by simp [extraStep, hc]
      rw [hstep, ih _ hn.2]
      have hfilter : (rest.filter fun kv2 => !(containsKey kv2.1 (acc ++ [(k, v)])))
          = rest.filter fun kv2 => !(containsKey kv2.1 acc) := by
        apply List.filter_congr
        intro kv2 hkv2
        have hne : kv2.1 ≠ k := by
          intro he
          exact hn.1 (he ▸ List.mem_map.mpr ⟨kv2, hkv2, rfl⟩)
        unfold containsKey
        rw [lookup_append]
        cases h2 : acc.lookup kv2.1 <;>
          simp [Option.or, beq_false_of_ne hne, List.lookup]
      rw [hfilter]
      simp [hc, List.append_assoc]

theorem lookup_priorityPart {α : Type} (d : List (String × α)) (k : String) :
    (priorityPart d).lookup k
      = if PROTOTYPE_FIELD_ORDER.contains k then d.lookup k else none := by
  unfold priorityPart
  generalize PROTOTYPE_FIELD_ORDER = fs
  induction fs with
  | nil => simp
  | cons f rest ih =>
    rw [List.filterMap_cons]
    by_cases hk : k = f
    · subst hk
      cases hl : d.lookup k with
      | none =>
        simp only [hl, Option.map_none']
        rw [ih]
        cases hcr : rest.contains k <;> simp [hcr, hl, List.contains_cons]
      | some v =>
        simp only [hl, Option.map_some']
        simp [lookup_cons_self, List.contains_cons, hl]
    · have hbeq : (k == f) = false := beq_false_of_ne hk
      cases hl : d.lookup f with
      | none =>
        simp only [hl, Option.map_none']
        rw [ih]
        simp [List.contains_cons, hbeq, hk]
      | some v =>
        simp only [hl, Option.map_some']
        rw [lookup_cons_ne hbeq, ih]
        simp [List.contains_cons, hbeq, hk]

theorem mem_priorityPart {α : Type} {d : List (String × α)} {k : String} {v : α} :
    (k, v) ∈ priorityPart d ↔
      k ∈ PROTOTYPE_FIELD_ORDER ∧ d.lookup k = some v := by
  unfold priorityPart
  rw [List.mem_filterMap]
  constructor
  · rintro ⟨f, hf, hmap⟩
    cases hl : d.lookup f with
    | none => rw [hl] at hmap; simp at hmap
    | some w =>
      rw [hl] at hmap
      simp only [Option.map_some'] at hmap
      injection hmap with h1
      injection h1 with hf1 hv1
      subst hf1
      subst hv1
      exact ⟨hf, hl⟩
  · rintro ⟨hk, hl⟩
    exact ⟨k, hk, by rw [hl]; rfl⟩

theorem keys_priorityPart {α : Type} (d : List (String × α)) :
    (priorityPart d).map Prod.fst
      = PROTOTYPE_FIELD_ORDER.filter fun f => (d.lookup f).isSome := by
  unfold priorityPart
  generalize PROTOTYPE_FIELD_ORDER = fs
  induction fs with
  | nil => rfl
  | cons f rest ih =>
    rw [List.filterMap_cons, List.filter_cons]
    cases hl : d.lookup f with
    | none => simp [hl, ih]
    | some v => simp [hl, ih]

theorem order_prototype_fields_eq {α : Type} (d : List (String × α)) (hn : keysNodup d) :
    order_prototype_fields d
      = priorityPart d ++ d.filter fun kv => !(PROTOTYPE_FIELD_ORDER.contains kv.1) := by
  unfold order_prototype_fields
  rw [foldl_orderStep_eq, List.nil_append, foldl_extraStep_eq d _ hn]
  have hpp : (PROTOTYPE_FIELD_ORDER.filterMap fun f => (d.lookup f).map fun v => (f, v))
      = priorityPart d := rfl
  rw [hpp]
  congr 1
  apply List.filter_congr
  intro kv hkv
  congr 1
  unfold containsKey
  rw [lookup_priorityPart]
  cases hc : PROTOTYPE_FIELD_ORDER.contains kv.1 with
  | false => simp [hc]
  | true =>
    obtain ⟨k, v⟩ := kv
    simp [hc, lookup_isSome_of_mem hkv]

theorem lookup_order_prototype_fields {α : Type} (d : List (String × α))
    (hn : keysNodup d) (k : String) :
    (order_prototype_fields d).lookup k = d.lookup k := by
  rw [order_prototype_fields_eq d hn, lookup_append, lookup_priorityPart]
  cases hc : PROTOTYPE_FIELD_ORDER.contains k with
  | true =>
    cases hl : d.lookup k with
    | some v => simp [hl]
    | none => simp [hl, lookup_filter_none _ hl, Option.or]
  | false =>
    have hf : (d.filter fun kv => !(PROTOTYPE_FIELD_ORDER.contains kv.1)).lookup k
        = d.lookup k := by
      apply lookup_filter_true
      intro v hv
      rw [Bool.not_eq_true']
      exact hc
    rw [hf]
    simp [Option.or]

theorem keysNodup_order {α : Type} {d : List (String × α)} (hn : keysNodup d) :
    keysNodup (order_prototype_fields d) := by
  rw [keysNodup, order_prototype_fields_eq d hn, List.map_append]
  apply List.Nodup.append
  · rw [keys_priorityPart]
    exact List.Nodup.filter _ (by decide)
  · exact ((List.filter_sublist d).map Prod.fst).nodup hn
  · intro x hx1 hx2
    rw [keys_priorityPart] at hx1
    have hxin : x ∈ PROTOTYPE_FIELD_ORDER := List.mem_of_mem_filter hx1
    rcases List.mem_map.mp hx2 with ⟨kv, hkv, hfst⟩
    have hp := (List.mem_filter.mp hkv).2
    rw [hfst] at hp
    rw [Bool.not_eq_true'] at hp
    have hx3 : PROTOTYPE_FIELD_ORDER.contains x = true := List.elem_iff.mpr hxin
    rw [hp] at hx3
    exact Bool.false_ne_true hx3

theorem order_prototype_fields_idem {α : Type} (d : List (String × α)) (hn : keysNodup d) :
    order_prototype_fields (order_prototype_fields d) = order_prototype_fields d := by
  have hno := keysNodup_order hn
  rw [order_prototype_fields_eq _ hno]
  have hpp : priorityPart (order_prototype_fields d) = priorityPart d := by
    unfold priorityPart
    apply List.filterMap_congr
    intro f _
    rw [lookup_order_prototype_fields d hn]
  rw [hpp]
  conv_lhs => rw [order_prototype_fields_eq d hn]
  conv_rhs => rw [order_prototype_fields_eq d hn]
  rw [List.filter_append]
  have h1 : (priorityPart d).filter (fun kv => !(PROTOTYPE_FIELD_ORDER.contains kv.1)) = [] := by
    rw [List.filter_eq_nil_iff]
    rintro ⟨k, v⟩ hm
    have hk := (mem_priorityPart.mp hm).1
    have hk2 : PROTOTYPE_FIELD_ORDER.contains k = true := List.elem_iff.mpr hk
    simp [hk2, hk]
  have h2 : ((d.filter fun kv => !(PROTOTYPE_FIELD_ORDER.contains kv.1)).filter
      fun kv => !(PROTOTYPE_FIELD_ORDER.contains kv.1))
      = d.filter fun kv => !(PROTOTYPE_FIELD_ORDER.contains kv.1) := by
    rw [List.filter_eq_self]
    intro kv hm
    exact (List.mem_filter.mp hm).2
  rw [h1, h2, List.nil_append]

theorem order_prototype_fields_perm {α : Type} (d : List (String × α)) (hn : keysNodup d) :
    (order_prototype_fields d).Perm d := by
  have hnd : d.Nodup := List.Nodup.of_map _ hn
  have hno : (order_prototype_fields d).Nodup := List.Nodup.of_map _ (keysNodup_order hn)
  rw [List.perm_ext_iff_of_nodup hno hnd]
  rintro ⟨k, v⟩
  rw [order_prototype_fields_eq d hn, List.mem_append, mem_priorityPart]
  constructor
  · rintro (⟨hk, hl⟩ | hm)
    · exact mem_of_lookup_eq_some hl
    · exact (List.mem_filter.mp hm).1
  · intro hm
    cases hc : PROTOTYPE_FIELD_ORDER.contains k with
    | true =>
      exact Or.inl ⟨List.elem_iff.mp hc, lookup_eq_some_of_mem_nodup hn hm⟩
    | false =>
      exact Or.inr (List.mem_filter.mpr ⟨hm, by rw [Bool.not_eq_true']; exact hc⟩)

/-- C9: the field orderer returns the same key-value pairs as the input (a
permutation: no key or value lost or altered, nested structures untouched),
laid out as the present priority keys in the fixed order `type, abstract,
parent, id, categories, name, suffix, description, components`, followed by
the remaining entries in their original relative order. -/
theorem field_orderer_spec {α : Type} (d : List (String × α)) (hn : keysNodup d) :
    order_prototype_fields d
      = priorityPart d ++ d.filter (fun kv => !(PROTOTYPE_FIELD_ORDER.contains kv.1)) ∧
    (order_prototype_fields d).Perm d :=
  ⟨order_prototype_fields_eq d hn, order_prototype_fields_perm d hn⟩

/-!
## Idempotence analysis
-/

theorem are_components_equal_both_empty {c1 c2 : Fields}
    (h1 : excludeType c1 = []) (h2 : excludeType c2 = []) :
    are_components_equal c1 c2 = true := by
  simp [are_components_equal, h1, h2]

theorem are_components_equal_mismatch {c1 c2 : Fields}
    (h : (excludeType c1).isEmpty ≠ (excludeType c2).isEmpty) :
    are_components_equal c1 c2 = false := by
  unfold are_components_equal
  cases he1 : (excludeType c1).isEmpty <;> cases he2 : (excludeType c2).isEmpty <;>
    first
      | (exact absurd (he1.trans he2.symm) h)
      | simp [he1, he2]

theorem are_components_equal_nonempty {c1 c2 : Fields}
    (h1 : (excludeType c1).isEmpty = false) (h2 : (excludeType c2).isEmpty = false) :
    are_components_equal c1 c2 = comparePairs (excludeType c1) (excludeType c2) := by
  unfold are_components_equal
  simp [h1, h2, compare_values_map]

theorem lookup_excludeType_ne {m : Fields} {k : String} (h : k ≠ "type") :
    (excludeType m).lookup k = m.lookup k := by
  unfold excludeType
  apply lookup_filter_true
  intro v hv
  simp [h]

theorem mem_excludeType {m : Fields} {k : String} {v : Value} :
    (k, v) ∈ excludeType m ↔ (k, v) ∈ m ∧ k ≠ "type" := by
  unfold excludeType
  rw [List.mem_filter]
  simp

theorem parentList_congr {p q : Fields} (h : p.lookup "parent" = q.lookup "parent") :
    parentList p = parentList q := by
  unfold parentList
  rw [h]

theorem get_all_parent_components_congr {fuel : Nat} {store : Store} {p q : Fields}
    (h : p.lookup "parent" = q.lookup "parent") :
    get_all_parent_components fuel store p = get_all_parent_components fuel store q := by
  cases fuel with
  | zero => rfl
  | succ n =>
    unfold get_all_parent_components
    rw [parentList_congr h]

theorem keys_setKey {α : Type} (l : List (String × α)) (k : String) (v : α) :
    (setKey l k v).map Prod.fst = l.map Prod.fst := by
  unfold setKey
  rw [List.map_map]
  apply List.map_congr_left
  intro kv hkv
  by_cases hk : kv.1 = k <;> simp [hk]

theorem lookup_setKey_self {α : Type} {l : List (String × α)} {k : String} {v0 : α}
    (v : α) (h : l.lookup k = some v0) : (setKey l k v).lookup k = some v := by
  induction l with
  | nil => simp [List.lookup] at h
  | cons e rest ih =>
    obtain ⟨k1, v1⟩ := e
    unfold setKey
    rw [List.map_cons]
    cases hbeq : k == k1 with
    | true =>
      have hk := eq_of_beq hbeq
      subst hk
      simp only [if_pos rfl]
      exact lookup_cons_self ..
    | false =>
      rw [lookup_cons_ne hbeq] at h
      have hne : k1 ≠ k := fun he => by simp [he] at hbeq
      simp only [if_neg hne]
      rw [lookup_cons_ne hbeq]
      exact ih h

theorem lookup_setKey_ne {α : Type} (l : List (String × α)) {k kq : String} (v : α)
    (h : kq ≠ k) : (setKey l k v).lookup kq = l.lookup kq := by
  induction l with
  | nil => rfl
  | cons e rest ih =>
    obtain ⟨k1, v1⟩ := e
    unfold setKey
    rw [List.map_cons]
    by_cases hk1 : k1 = k
    · subst hk1
      have hbeq : (kq == k1) = false := beq_false_of_ne h
      rw [if_pos rfl]
      rw [lookup_cons_ne hbeq, lookup_cons_ne hbeq]
      exact ih
    · simp only [if_neg hk1]
      cases hbeq : kq == k1 with
      | true =>
        have he := eq_of_beq hbeq
        subst he
        rw [lookup_cons_self, lookup_cons_self]
      | false =>
        rw [lookup_cons_ne hbeq, lookup_cons_ne hbeq]
        exact ih

theorem setKey_of_not_mem {α : Type} {l : List (String × α)} {k : String} (v : α)
    (h : k ∉ l.map Prod.fst) : setKey l k v = l := by
  induction l with
  | nil => rfl
  | cons e rest ih =>
    obtain ⟨k1, v1⟩ := e
    rw [List.map_cons] at h
    unfold setKey
    rw [List.map_cons]
    have hne : k1 ≠ k := by
      intro he
      subst he
      exact h (List.mem_cons_self _ _)
    simp only [if_neg hne]
    congr 1
    exact ih fun hm => h (List.mem_cons_of_mem _ hm)

theorem setKey_eq_self {α : Type} {l : List (String × α)} {k : String} {v : α}
    (hn : keysNodup l) (h : l.lookup k = some v) : setKey l k v = l := by
  induction l with
  | nil => rfl
  | cons e rest ih =>
    obtain ⟨k1, v1⟩ := e
    simp only [keysNodup, List.map_cons, List.nodup_cons] at hn
    unfold setKey
    rw [List.map_cons]
    cases hbeq : k == k1 with
    | true =>
      have hk := eq_of_beq hbeq
      subst hk
      rw [lookup_cons_self] at h
      injection h with hv
      subst hv
      rw [if_pos rfl]
      congr 1
      have hr := setKey_of_not_mem (l := rest) v1 hn.1
      unfold setKey at hr
      exact hr
    | false =>
      rw [lookup_cons_ne hbeq] at h
      have hne : k1 ≠ k := fun he => by simp [he] at hbeq
      simp only [if_neg hne]
      congr 1
      have := ih hn.2 h
      unfold setKey at this
      exact this

theorem sanitize_no_components {fuel : Nat} {store : Store} {P : Fields}
    (h : ∀ comps, P.lookup "components" ≠ some (.seq comps)) :
    sanitize_prototype fuel store P = some (order_prototype_fields P) := by
  unfold sanitize_prototype
  cases hc : P.lookup "components" with
  | none => rfl
  | some v =>
    cases v with
    | seq l => exact absurd hc (h l)
    | prim p => rfl
    | tagged t p => rfl
    | map m => rfl

/-- A component the first sanitize pass kept is kept unchanged by a second
pass, provided it does not pair a now-bare field set with a bare ancestor. -/
theorem processComponent_fixed {pc : PCIndex} {c cq : Value}
    (hp : processComponent pc c = some cq)
    (hbare : ∀ m t L, cq = .map m → m.lookup "type" = some t → pc.lookup t = some L →
      excludeType m ≠ [] ∨ ∀ anc ∈ L, excludeType anc ≠ []) :
    processComponent pc cq = some cq := by
  cases c with
  | prim p => injection hp with h; subst h; rfl
  | tagged t p => injection hp with h; subst h; rfl
  | seq l => injection hp with h; subst h; rfl
  | map m =>
    cases hl : m.lookup "type" with
    | none =>
      simp only [processComponent, hl] at hp
      injection hp with h
      subst h
      simp [processComponent, hl]
    | some t =>
      cases hpc : pc.lookup t with
      | none =>
        simp only [processComponent, hl, hpc] at hp
        injection hp with h
        subst h
        simp [processComponent, hl, hpc]
      | some L =>
        cases hany : L.any (fun p => are_components_equal m p) with
        | true =>
          rw [processComponent_of_removal hl hpc hany] at hp
          exact absurd hp (by simp)
        | false =>
          have hnoteq : ∀ anc ∈ L, are_components_equal m anc = false := by
            intro anc ha
            have hne := List.any_eq_false.mp hany anc ha
            cases hb : are_components_equal m anc
            · rfl
            · exact absurd hb hne
          rw [processComponent_of_kept hl hpc hnoteq] at hp
          injection hp with h
          subst h
          have htype2 : (remove_redundant_fields m L).lookup "type" = some t := by
            rw [lookup_type_remove_redundant_fields, hl]
          have hfieldfalse : ∀ k v, (k, v) ∈ remove_redundant_fields m L → k ≠ "type" →
              fieldRedundant L k v = false := by
            intro k v hm hk
            rcases mem_remove_redundant_fields hm with ⟨_, hd⟩
            rcases hd with h1 | h2
            · exact absurd h1 hk
            · exact h2
          have hnoteq2 : ∀ anc ∈ L,
              are_components_equal (remove_redundant_fields m L) anc = false := by
            intro anc ha
            cases hm2 : (excludeType (remove_redundant_fields m L)).isEmpty with
            | true =>
              have hemp : excludeType (remove_redundant_fields m L) = [] :=
                List.isEmpty_iff.mp hm2
              rcases hbare (remove_redundant_fields m L) t L rfl htype2 hpc with hne | hall
              · exact absurd hemp hne
              · have hancne := hall anc ha
                apply are_components_equal_mismatch
                rw [hm2]
                cases he : (excludeType anc).isEmpty with
                | true => exact absurd (List.isEmpty_iff.mp he) hancne
                | false => simp
            | false =>
              cases he : (excludeType anc).isEmpty with
              | true =>
                apply are_components_equal_mismatch
                rw [hm2, he]
                simp
              | false =>
                rw [are_components_equal_nonempty hm2 he]
                cases hcp : comparePairs (excludeType (remove_redundant_fields m L))
                    (excludeType anc) with
                | false => rfl
                | true =>
                  exfalso
                  have hiff := (comparePairs_eq_true_iff _ _).mp hcp
                  have hnemp : excludeType (remove_redundant_fields m L) ≠ [] := by
                    intro hx
                    rw [hx] at hm2
                    simp at hm2
                  obtain ⟨⟨k, v⟩, hkv⟩ := List.exists_mem_of_ne_nil _ hnemp
                  obtain ⟨w, hw, hcw⟩ := hiff (k, v) hkv
                  rcases mem_excludeType.mp hkv with ⟨hkvm, hknt⟩
                  have hred : fieldRedundant L k v = true := by
                    rw [fieldRedundant_eq_true_iff]
                    refine ⟨anc, ha, w, ?_, hcw⟩
                    rw [← lookup_excludeType_ne hknt]
                    exact hw
                  rw [hfieldfalse k v hkvm hknt] at hred
                  exact Bool.false_ne_true hred
          have hany2 :
              L.any (fun p => are_components_equal (remove_redundant_fields m L) p) = false :=
            List.any_eq_false.mpr fun anc ha => by
              rw [hnoteq2 anc ha]; exact Bool.false_ne_true
          have hrrf2 : remove_redundant_fields (remove_redundant_fields m L) L =
              remove_redundant_fields m L :=
            remove_redundant_fields_eq_self fun k v hm hk => hfieldfalse k v hm hk
          rw [processComponent_of_kept htype2 hpc hnoteq2, hrrf2]

/-- C1 counterexample: sanitize is not idempotent.  The first run strips the
target's X component to `{type: X}` (each field matched a different ancestor);
the second run whole-removes it against ancestor A's bare `{type: X}`. -/
theorem sanitize_not_idempotent_cex :
    sanitize_prototype 10 storeCex protoCex
      = some [("type", .prim (.str "entity")),
              ("parent", .seq [.prim (.str "A"), .prim (.str "B"), .prim (.str "C")]),
              ("id", .prim (.str "P")),
              ("components", .seq [.map [("type", .prim (.str "X"))]])] ∧
    (sanitize_prototype 10 storeCex protoCex).bind (sanitize_prototype 10 storeCex)
      ≠ sanitize_prototype 10 storeCex protoCex := by
  exact ⟨by decide, by decide⟩

/-- C1 (amended): sanitizing an already-sanitized prototype with the same
store yields an identical document, provided no component the first run kept
consists of only its `type` field while some collected ancestor component of
the same type also has only its `type` field. -/
theorem sanitize_idempotent_of_no_bare_rematch (fuel : Nat) (store : Store)
    (P Q : Fields) (hn : keysNodup P)
    (hs : sanitize_prototype fuel store P = some Q)
    (hside : noBareRematch fuel store P = true) :
    sanitize_prototype fuel store Q = some Q := by
  by_cases hseq : ∃ comps, P.lookup "components" = some (.seq comps)
  · obtain ⟨comps, hcomp⟩ := hseq
    simp only [sanitize_prototype, hcomp] at hs
    cases hga : get_all_parent_components fuel store P with
    | none => rw [hga] at hs; exact absurd hs (by simp)
    | some pc =>
      rw [hga] at hs
      injection hs with hQ
      subst hQ
      set N := sanitizeComponents pc comps with hN
      set D := setKey P "components" (.seq N) with hD
      have hnD : keysNodup D := by
        rw [keysNodup, hD, keys_setKey]
        exact hn
      have hQcomps : (order_prototype_fields D).lookup "components" = some (.seq N) := by
        rw [lookup_order_prototype_fields D hnD, hD]
        exact lookup_setKey_self _ hcomp
      have hQpar : (order_prototype_fields D).lookup "parent" = P.lookup "parent" := by
        rw [lookup_order_prototype_fields D hnD, hD]
        exact lookup_setKey_ne P _ (by decide)
      have hgaQ : get_all_parent_components fuel store (order_prototype_fields D)
          = some pc := by
        rw [get_all_parent_components_congr hQpar, hga]
      have hfix : ∀ cq ∈ N, processComponent pc cq = some cq := by
        intro cq hcq
        rcases List.mem_filterMap.mp hcq with ⟨c, hc, hpcq⟩
        apply processComponent_fixed hpcq
        intro m t L hm ht hL
        subst hm
        unfold noBareRematch at hside
        simp only [hcomp, hga] at hside
        have hall := List.all_eq_true.mp hside (.map m) hcq
        simp only [ht, hL] at hall
        rcases Bool.or_eq_true _ _ |>.mp hall with hleft | hright
        · left
          intro hx
          rw [hx] at hleft
          simp at hleft
        · right
          intro anc ha
          have := List.all_eq_true.mp hright anc ha
          intro hx
          rw [hx] at this
          simp at this
      have hNN : sanitizeComponents pc N = N := filterMap_id_of hfix
      have hsetQ : setKey (order_prototype_fields D) "components" (.seq N)
          = order_prototype_fields D :=
        setKey_eq_self (keysNodup_order hnD) hQcomps
      simp only [sanitize_prototype, hQcomps, hgaQ, hNN, hsetQ]
      rw [order_prototype_fields_idem D hnD]
  · have hnc : ∀ comps, P.lookup "components" ≠ some (.seq comps) := by
      intro comps hc
      exact hseq ⟨comps, hc⟩
    rw [sanitize_no_components hnc] at hs
    injection hs with hQ
    subst hQ
    have hq : (order_prototype_fields P).lookup "components" = P.lookup "components" :=
      lookup_order_prototype_fields P hn "components"
    have hncQ : ∀ comps,
        (order_prototype_fields P).lookup "components" ≠ some (.seq comps) := by
      intro comps hc
      rw [hq] at hc
      exact hnc comps hc
    rw [sanitize_no_components hncQ, order_prototype_fields_idem P hn]

/-- Witness for the amended idempotence claim on the spec's Sprite example. -/
theorem sanitize_idempotent_of_no_bare_rematch_witness :
    sanitize_prototype 10 storeIdem protoIdem = some sanitizedIdem ∧
    sanitize_prototype 10 storeIdem sanitizedIdem = some sanitizedIdem :=
  have h : sanitize_prototype 10 storeIdem protoIdem = some sanitizedIdem := by decide
  ⟨h, sanitize_idempotent_of_no_bare_rematch 10 storeIdem protoIdem sanitizedIdem
    (by decide) h (by decide)⟩

/-!
## Exception channel
-/

/-- C2 (amended): an exception raised while structurally comparing the two
field sets inside the whole-component equality check is caught and the
components are treated as not equal. -/
theorem whole_check_catches_comparison_error (d : Nat) (c1 c2 : Fields)
    (hne : ¬((excludeType c1).isEmpty = true ∧ (excludeType c2).isEmpty = true))
    (herr : compare_valuesE d (.map (excludeType c1)) (.map (excludeType c2)) = .error ()) :
    are_components_equalE d c1 c2 = false := by
  unfold are_components_equalE
  cases he1 : (excludeType c1).isEmpty <;> cases he2 : (excludeType c2).isEmpty
  · simp [he1, he2, herr]
  · simp [he1, he2]
  · simp [he1, he2]
  · exact absurd ⟨he1, he2⟩ hne

/-- Witness for the amended C2 claim at recursion budget 0. -/
theorem whole_check_catches_comparison_error_witness :
    are_components_equalE 0 [("a", .prim (.int 1))] [("a", .prim (.int 1))] = false :=
  whole_check_catches_comparison_error 0 _ _ (by decide) (by decide)

/-- C2 counterexample: with recursion budget 1, the whole-component comparison
of the target's X component against its ancestor raises and is caught (treated
as not equal), but the same nested comparison re-run by the unguarded
field-level stripping raises again and the exception escapes
`sanitize_prototype`. -/
theorem comparison_exception_escapes_cex :
    are_components_equalE 1
      [("type", .prim (.str "X")), ("a", .seq [.prim (.int 1)])]
      [("type", .prim (.str "X")), ("a", .seq [.prim (.int 1)])] = false ∧
    compare_valuesE 1 (.seq [.prim (.int 1)]) (.seq [.prim (.int 1)]) = .error () ∧
    sanitize_prototypeE 5 1 storeExc protoExc = .error () := by
  exact ⟨by decide, by decide, by decide⟩

/-!
## Heap model: frame lemmas
-/

theorem heapExtends_refl (h : Heap) : HeapExtends h h :=
  ⟨le_refl _, [], by simp, by simp⟩

theorem heapExtends_trans {h1 h2 h3 : Heap}
    (a : HeapExtends h1 h2) (b : HeapExtends h2 h3) : HeapExtends h1 h3 := by
  obtain ⟨hn1, ext1, hm1, hb1⟩ := a
  obtain ⟨hn2, ext2, hm2, hb2⟩ := b
  refine ⟨le_trans hn1 hn2, ext1 ++ ext2, ?_, ?_⟩
  · rw [hm2, hm1, List.append_assoc]
  · intro e he
    rcases List.mem_append.mp he with h1e | h2e
    · exact ⟨(hb1 e h1e).1, lt_of_lt_of_le (hb1 e h1e).2 hn2⟩
    · exact ⟨le_trans hn1 (hb2 e h2e).1, (hb2 e h2e).2⟩

theorem heapExtends_push (h : Heap) (hv : HVal) : HeapExtends h (h.push hv).1 := by
  refine ⟨Nat.le_succ _, [(h.next, hv)], rfl, ?_⟩
  intro e he
  rw [List.mem_singleton] at he
  subst he
  exact ⟨le_refl _, Nat.lt_succ_self _⟩

theorem lookupA_of_extends {h h2 : Heap} (hx : HeapExtends h h2) {a : Addr}
    (ha : a < h.next) : h2.lookupA a = h.lookupA a := by
  obtain ⟨hn, ext, hm, hb⟩ := hx
  unfold Heap.lookupA
  rw [hm, lookup_append]
  cases hl : h.mem.lookup a with
  | some v => rfl
  | none =>
    have hnone : ext.lookup a = none := by
      rw [lookup_eq_none_iff]
      intro hc
      rcases List.mem_map.mp hc with ⟨e, he, hfst⟩
      exact absurd ha (not_lt.mpr (hfst ▸ (hb e he).1))
    rw [hnone]
    rfl

theorem heapBounded_of_wf {h : Heap} (hwf : HeapWF h) : HeapBounded h :=
  fun e he => (hwf e he).1

theorem heapBounded_of_extends {h h2 : Heap} (hb : HeapBounded h)
    (hx : HeapExtends h h2) : HeapBounded h2 := by
  obtain ⟨hn, ext, hm, hbe⟩ := hx
  intro e he
  rw [hm] at he
  rcases List.mem_append.mp he with h1e | h2e
  · exact lt_of_lt_of_le (hb e h1e) hn
  · exact (hbe e h2e).2

theorem lookupA_push_self {h : Heap} (hb : HeapBounded h) (hv : HVal) :
    (h.push hv).1.lookupA (h.push hv).2 = some hv := by
  unfold Heap.push Heap.lookupA
  simp only
  rw [lookup_append]
  have hnone : h.mem.lookup h.next = none := by
    rw [lookup_eq_none_iff]
    intro hc
    rcases List.mem_map.mp hc with ⟨e, he, hfst⟩
    exact absurd (hfst ▸ hb e he) (lt_irrefl _)
  rw [hnone, lookup_cons_self]
  rfl

theorem lookup_update_ne {κ α : Type} [BEq κ] [LawfulBEq κ] [DecidableEq κ]
    {l : List (κ × α)} {la a : κ} (hv : α) (hne : a ≠ la) :
    (l.map fun e => if e.1 = la then (la, hv) else e).lookup a = l.lookup a := by
  induction l with
  | nil => rfl
  | cons e rest ih =>
    obtain ⟨k1, v1⟩ := e
    rw [List.map_cons]
    by_cases hk : k1 = la
    · subst hk
      have hbeq : (a == k1) = false := beq_false_of_ne hne
      rw [if_pos rfl]
      rw [lookup_cons_ne hbeq, lookup_cons_ne hbeq]
      exact ih
    · rw [if_neg hk]
      cases hbeq : a == k1 with
      | true =>
        have hak := eq_of_beq hbeq
        subst hak
        rw [lookup_cons_self, lookup_cons_self]
      | false =>
        rw [lookup_cons_ne hbeq, lookup_cons_ne hbeq]
        exact ih

theorem lookupA_write_ne {h : Heap} {la a : Addr} (hv : HVal) (hne : a ≠ la) :
    (h.write la hv).lookupA a = h.lookupA a :=
  lookup_update_ne hv hne

mutual

theorem allocV_spec : ∀ (h : Heap) (v : Value),
    HeapExtends h (allocV h v).1 ∧
    h.next ≤ (allocV h v).2 ∧ (allocV h v).2 < (allocV h v).1.next
  | h, .prim p => ⟨heapExtends_push h _, le_refl _, Nat.lt_succ_self _⟩
  | h, .tagged t p => ⟨heapExtends_push h _, le_refl _, Nat.lt_succ_self _⟩
  | h, .seq l => by
    have hspec := allocList_spec h l
    rcases hal : allocList h l with ⟨h1, addrs⟩
    rw [hal] at hspec
    simp only [allocV, hal]
    exact ⟨heapExtends_trans hspec.1 (heapExtends_push h1 _), hspec.1.1,
      Nat.lt_succ_self _⟩
  | h, .map m => by
    have hspec := allocFields_spec h m
    rcases hal : allocFields h m with ⟨h1, entries⟩
    rw [hal] at hspec
    simp only [allocV, hal]
    exact ⟨heapExtends_trans hspec.1 (heapExtends_push h1 _), hspec.1.1,
      Nat.lt_succ_self _⟩

theorem allocList_spec : ∀ (h : Heap) (l : List Value),
    HeapExtends h (allocList h l).1 ∧
    ∀ a ∈ (allocList h l).2, h.next ≤ a ∧ a < (allocList h l).1.next
  | h, [] => ⟨heapExtends_refl h, by simp [allocList]⟩
  | h, v :: rest => by
    have hv := allocV_spec h v
    rcases hav : allocV h v with ⟨h1, a⟩
    rw [hav] at hv
    have hr := allocList_spec h1 rest
    rcases har : allocList h1 rest with ⟨h2, as'⟩
    rw [har] at hr
    simp only [allocList, hav, har]
    refine ⟨heapExtends_trans hv.1 hr.1, ?_⟩
    intro x hx
    rcases List.mem_cons.mp hx with hxa | hxs
    · subst hxa
      exact ⟨hv.2.1, lt_of_lt_of_le hv.2.2 hr.1.1⟩
    · exact ⟨le_trans hv.1.1 (hr.2 x hxs).1, (hr.2 x hxs).2⟩

theorem allocFields_spec : ∀ (h : Heap) (m : Fields),
    HeapExtends h (allocFields h m).1 ∧
    ∀ e ∈ (allocFields h m).2, h.next ≤ e.2 ∧ e.2 < (allocFields h m).1.next
  | h, [] => ⟨heapExtends_refl h, by simp [allocFields]⟩
  | h, (k, v) :: rest => by
    have hv := allocV_spec h v
    rcases hav : allocV h v with ⟨h1, a⟩
    rw [hav] at hv
    have hr := allocFields_spec h1 rest
    rcases har : allocFields h1 rest with ⟨h2, es⟩
    rw [har] at hr
    simp only [allocFields, hav, har]
    refine ⟨heapExtends_trans hv.1 hr.1, ?_⟩
    intro x hx
    rcases List.mem_cons.mp hx with hxa | hxs
    · subst hxa
      exact ⟨hv.2.1, lt_of_lt_of_le hv.2.2 hr.1.1⟩
    · exact ⟨le_trans hv.1.1 (hr.2 x hxs).1, (hr.2 x hxs).2⟩

end

theorem allocV_map_node {h : Heap} (m : Fields) (hb : HeapBounded h) :
    (allocV h (.map m)).1.lookupA (allocV h (.map m)).2
      = some (.hmap (allocFields h m).2) := by
  have hspec := (allocFields_spec h m).1
  rcases hal : allocFields h m with ⟨h1, entries⟩
  rw [hal] at hspec
  simp only [allocV, hal]
  exact lookupA_push_self (heapBounded_of_extends hb hspec) _

theorem sanStep_extends (d : Nat) (pc : PCIndex) (acc : Heap × List Addr) (e : Addr) :
    HeapExtends acc.1 (sanStep d pc acc e).1 := by
  unfold sanStep
  repeat' split
  all_goals first
    | exact heapExtends_refl _
    | exact heapExtends_push _ _

theorem foldl_sanStep_extends (d : Nat) (pc : PCIndex) :
    ∀ (elems : List Addr) (acc : Heap × List Addr),
      HeapExtends acc.1 (elems.foldl (sanStep d pc) acc).1 := by
  intro elems
  induction elems with
  | nil => intro acc; exact heapExtends_refl _
  | cons e rest ih =>
    intro acc
    rw [List.foldl_cons]
    exact heapExtends_trans (sanStep_extends d pc acc e) (ih _)

theorem readElems_congr {rd rd2 : Addr → Option Value} :
    ∀ (elems : List Addr), (∀ e ∈ elems, rd e = rd2 e) →
      readElems rd elems = readElems rd2 elems := by
  intro elems
  induction elems with
  | nil => intro _; rfl
  | cons e rest ih =>
    intro hall
    have htail := ih fun x hx => hall x (List.mem_cons_of_mem _ hx)
    have hhead := hall e (List.mem_cons_self _ _)
    unfold readElems at htail ⊢
    rw [List.foldr_cons, List.foldr_cons, htail, hhead]

theorem readEntries_congr {rd rd2 : Addr → Option Value} :
    ∀ (entries : List (String × Addr)), (∀ e ∈ entries, rd e.2 = rd2 e.2) →
      readEntries rd entries = readEntries rd2 entries := by
  intro entries
  induction entries with
  | nil => intro _; rfl
  | cons e rest ih =>
    intro hall
    have htail := ih fun x hx => hall x (List.mem_cons_of_mem _ hx)
    have hhead := hall e (List.mem_cons_self _ _)
    unfold readEntries at htail ⊢
    rw [List.foldr_cons, List.foldr_cons, htail, hhead]

theorem readV_congr {h h2 : Heap} (hwf : HeapWF h)
    (hpres : ∀ a, a < h.next → h2.lookupA a = h.lookupA a) :
    ∀ (d : Nat) (a : Addr), a < h.next → readV d h2 a = readV d h a := by
  intro d
  induction d with
  | zero => intro a _; rfl
  | succ n ih =>
    intro a ha
    unfold readV
    rw [hpres a ha]
    cases hl : h.lookupA a with
    | none => rfl
    | some node =>
      cases node with
      | hprim p => rfl
      | htagged t p => rfl
      | hseq elems =>
        have hmem : (a, HVal.hseq elems) ∈ h.mem := mem_of_lookup_eq_some hl
        have hrefs : ∀ r ∈ elems, r < h.next := by
          intro r hr
          exact (hwf _ hmem).2 r (by simpa [HVal.refs] using hr)
        have hre := readElems_congr elems (fun e he => ih e (hrefs e he))
        simp only [hre]
      | hmap entries =>
        have hmem : (a, HVal.hmap entries) ∈ h.mem := mem_of_lookup_eq_some hl
        have hrefs : ∀ r ∈ entries, r.2 < h.next := by
          intro r hr
          apply (hwf _ hmem).2
          simp only [HVal.refs]
          exact List.mem_map.mpr ⟨r, hr, rfl⟩
        have hre := readEntries_congr entries (fun e he => ih e.2 (hrefs e he))
        simp only [hre]

/-- C8: sanitize operates on a deep copy of the target document.  Every heap
cell allocated before the call — in particular the store entry for the target
id and every other store document — is exactly as it was afterwards, and
reading any pre-existing document out of the result heap gives the value it
had before. -/
theorem sanitize_preserves_store_heap {fuel d : Nat} {h : Heap}
    {store : List (String × Addr)} {pid : String} {hq : Heap} {ra : Addr}
    (hwf : HeapWF h) (hs : sanitizeH fuel d h store pid = some (hq, ra)) :
    (∀ a, a < h.next → hq.lookupA a = h.lookupA a) ∧
    (∀ (dd : Nat) (a : Addr), a < h.next → readV dd hq a = readV dd h a) := by
  have hmain : ∀ a, a < h.next → hq.lookupA a = h.lookupA a := by
    unfold sanitizeH at hs
    cases hlp : store.lookup pid with
    | none => rw [hlp] at hs; exact absurd hs (by simp)
    | some pa =>
      rw [hlp] at hs
      simp only at hs
      cases hrv : readV d h pa with
      | none => rw [hrv] at hs; exact absurd hs (by simp)
      | some v =>
        rw [hrv] at hs
        cases v with
        | prim p => exact absurd hs (by simp)
        | tagged t p => exact absurd hs (by simp)
        | seq l => exact absurd hs (by simp)
        | map fields =>
          simp only at hs
          have hx1 : HeapExtends h (allocV h (.map fields)).1 :=
            (allocV_spec h (.map fields)).1
          have hnode := allocV_map_node fields (heapBounded_of_wf hwf)
          have hentries := (allocFields_spec h fields).2
          rcases hav : allocV h (.map fields) with ⟨h1, ca⟩
          rw [hav] at hs hx1 hnode
          simp only at hs hnode
          rw [hnode] at hs
          simp only at hs
          cases hlc : ((allocFields h fields).2).lookup "components" with
          | none =>
            rw [hlc] at hs
            simp only at hs
            injection hs with hpair
            injection hpair with hq1 hq2
            subst hq1
            intro a ha
            rw [lookupA_of_extends (heapExtends_push h1 _)
              (lt_of_lt_of_le ha hx1.1)]
            exact lookupA_of_extends hx1 ha
          | some la =>
            rw [hlc] at hs
            simp only at hs
            have hla : h.next ≤ la :=
              (hentries _ (mem_of_lookup_eq_some hlc)).1
            cases hll : h1.lookupA la with
            | none =>
              rw [hll] at hs
              simp only at hs
              injection hs with hpair
              injection hpair with hq1 hq2
              subst hq1
              intro a ha
              rw [lookupA_of_extends (heapExtends_push h1 _)
                (lt_of_lt_of_le ha hx1.1)]
              exact lookupA_of_extends hx1 ha
            | some node =>
              rw [hll] at hs
              cases node with
              | hprim p =>
                simp only at hs
                injection hs with hpair
                injection hpair with hq1 hq2
                subst hq1
                intro a ha
                rw [lookupA_of_extends (heapExtends_push h1 _)
                  (lt_of_lt_of_le ha hx1.1)]
                exact lookupA_of_extends hx1 ha
              | htagged t p =>
                simp only at hs
                injection hs with hpair
                injection hpair with hq1 hq2
                subst hq1
                intro a ha
                rw [lookupA_of_extends (heapExtends_push h1 _)
                  (lt_of_lt_of_le ha hx1.1)]
                exact lookupA_of_extends hx1 ha
              | hmap m2 =>
                simp only at hs
                injection hs with hpair
                injection hpair with hq1 hq2
                subst hq1
                intro a ha
                rw [lookupA_of_extends (heapExtends_push h1 _)
                  (lt_of_lt_of_le ha hx1.1)]
                exact lookupA_of_extends hx1 ha
              | hseq elemAddrs =>
                simp only at hs
                cases hrs : readStore d h1 store with
                | none => rw [hrs] at hs; exact absurd hs (by simp)
                | some storeVals =>
                  rw [hrs] at hs
                  simp only at hs
                  cases hga : get_all_parent_components fuel storeVals fields with
                  | none => rw [hga] at hs; exact absurd hs (by simp)
                  | some pc =>
                    rw [hga] at hs
                    simp only at hs
                    have hx3 : HeapExtends h1
                        (elemAddrs.foldl (sanStep d pc) (h1, [])).1 :=
                      foldl_sanStep_extends d pc elemAddrs (h1, [])
                    rcases hfold : elemAddrs.foldl (sanStep d pc) (h1, []) with
                      ⟨h3, newElems⟩
                    rw [hfold] at hs hx3
                    simp only at hs hx3
                    injection hs with hpair
                    injection hpair with hq1 hq2
                    subst hq1
                    intro a ha
                    have ha1 : a < h1.next := lt_of_lt_of_le ha hx1.1
                    have ha3 : a < h3.next := lt_of_lt_of_le ha1 hx3.1
                    have hane : a ≠ la := fun he =>
                      absurd ha (not_lt.mpr (he ▸ hla))
                    rw [lookupA_of_extends
                      (heapExtends_push (h3.write la (.hseq newElems)) _) ha3]
                    rw [lookupA_write_ne _ hane]
                    rw [lookupA_of_extends hx3 ha1]
                    exact lookupA_of_extends hx1 ha
  exact ⟨hmain, readV_congr hwf hmain⟩

/-- Witness for C8: sanitizing the single document of a concrete heap leaves
the pre-existing cell of the store document intact. -/
theorem sanitize_preserves_store_heap_witness :
    HeapWF heapW ∧
    ((sanitizeH 5 6 heapW [("P", 0)] "P").map fun r => r.1.lookupA 0)
      = some (heapW.lookupA 0) := by
  refine ⟨by decide, ?_⟩
  rcases hs : sanitizeH 5 6 heapW [("P", 0)] "P" with _ | ⟨h2, ra⟩
  · exact absurd hs (by decide)
  · have hpres := (sanitize_preserves_store_heap (by decide) hs).1 0 (by decide)
    simp [hpres]

/-- Witness for C9 on a document with shuffled keys and an extra key. -/
theorem field_orderer_spec_witness :
    order_prototype_fields [("name", 1), ("zzz", 2), ("type", 3), ("id", 4)]
      = priorityPart [("name", 1), ("zzz", 2), ("type", 3), ("id", 4)]
        ++ [("name", 1), ("zzz", 2), ("type", 3), ("id", 4)].filter
             (fun kv => !(PROTOTYPE_FIELD_ORDER.contains kv.1)) ∧
    (order_prototype_fields [("name", 1), ("zzz", 2), ("type", 3), ("id", 4)]).Perm
      [("name", 1), ("zzz", 2), ("type", 3), ("id", 4)] :=
  field_orderer_spec _ (by decide)

end YamlSanitizer
